import Mathlib

/-!
Verification development for the `large-sort` external merge-sort library.

The TypeScript source is shallowly embedded in Lean:
* text is modelled as `List Char` (`Str`);
* JavaScript `String.prototype.split` is modelled by `splitOnL`
  (and, for the single-character newline used by the run-file reader,
  by the structurally recursive `splitLines`);
* `Array.prototype.sort(compareFn)` (a stable sort) is modelled by
  `List.insertionSort` on the relation `compareFn x y ≤ 0`;
* the asynchronous stream loops become fueled tail-recursive functions;
  the fuel given at every call site provably dominates the loop variant,
  so the model computes exactly the loop's result;
* caller-supplied callbacks become function parameters; an `inputMapFn`
  that may throw is modelled as `Str → Option α` in the split stage
  (the stage that catches), and as a total function in the merge stage
  (where the code does not catch);
* machine integers are `Nat`/`Int`; the only float in the program,
  `maxStringLength = Math.pow(2, 23) * .90`, is compared against an
  integer buffer size, which is equivalent to the integer test
  `7549747 < size`.
-/

namespace LargeSort

/-- Text, modelled as a list of characters. -/
abbrev Str := List Char

/-- The newline character used as run-file delimiter by `flushBuffer`. -/
def nl : Char := '\n'

/-- Single-character splitter: models how `readline` cuts a stream of text
into lines at each occurrence of the character `c` (the run files written
by `flushBuffer` never contain `\r`, so CRLF handling is not needed). -/
def splitLines (c : Char) : Str → List Str
  | [] => [[]]
  | ch :: rest =>
    if ch = c then [] :: splitLines c rest
    else
      match splitLines c rest with
      | [] => [[ch]]
      | p :: ps => (ch :: p) :: ps

/-- Fueled worker for `splitOnL`; the fuel is the length of the text, which
strictly dominates the recursion. -/
def splitAux (sep : Str) : Nat → Str → List Str
  | 0, s => [s]
  | _ + 1, [] => [[]]
  | fuel + 1, ch :: rest =>
    if (ch :: rest).take sep.length = sep then
      [] :: splitAux sep fuel (rest.drop (sep.length - 1))
    else
      match splitAux sep fuel rest with
      | [] => [[ch]]
      | p :: ps => (ch :: p) :: ps

/-- Model of JavaScript `text.split(sep)` for a string separator: splits at
each leftmost non-overlapping occurrence of `sep`; an empty separator
splits into single characters. -/
def splitOnL (sep s : Str) : List Str :=
  if sep = [] then s.map (fun c => [c]) else splitAux sep s.length s

/-- Model of JavaScript `String.prototype.trim` (restricted to the
whitespace characters of `Char.isWhitespace`, which cover the delimiters
and padding that occur in this library's data). -/
def trimL (s : Str) : Str :=
  ((s.dropWhile Char.isWhitespace).reverse.dropWhile Char.isWhitespace).reverse

/-- Model of `array.splice(start, 0, x)`: insert `x` at the (clamped)
index `start`, JavaScript clamping rules included. -/
def spliceInsert (idx : Int) (x : α) (l : List α) : List α :=
  let n : Int := l.length
  let start := if idx < 0 then max (n + idx) 0 else min idx n
  l.take start.toNat ++ x :: l.drop start.toNat

/-- The final, after-loop part of `binarySearch` (`src/unnamed/part_001`,
lines 555-558): `if(start == array.length - 1 && compareFn(array[start],
target) < 0) return start + 1; return start;`.  Out-of-range reads (which
the reachable states never perform) return the target itself in place of
JavaScript's `undefined`. -/
def bsFinal (cmp : β → β → Int) (t : β) (a : List β) (start : Int) : Int :=
  if start = (a.length : Int) - 1 ∧ cmp (a.getD start.toNat t) t < 0 then start + 1
  else start

/-- Fueled worker for `binarySearch`'s `while(start != end - 1)` loop
(`src/unnamed/part_001`, lines 535-554).  `Int` indices keep JavaScript's
behaviour on the empty array (`end - 1 = -1`, so the loop is entered and
returns `0` at `mid == 0`).  `/` on `Int` is floor division for the
nonnegative operands that occur, matching `Math.floor((start+end)/2)`. -/
def bsGo (cmp : β → β → Int) (t : β) (a : List β) : Nat → Int → Int → Int
  | 0, start, _ => bsFinal cmp t a start
  | fuel + 1, start, stop =>
    if start = stop - 1 then bsFinal cmp t a start
    else
      let mid := (start + stop) / 2
      let pivot := a.getD mid.toNat t
      if mid = 0 then mid
      else
        let beforePivot := a.getD (mid - 1).toNat t
        if 0 ≤ cmp pivot t ∧ cmp beforePivot t < 0 then mid
        else if 0 < cmp pivot t then bsGo cmp t a fuel start mid
        else bsGo cmp t a fuel mid stop

/-- Model of `binarySearch(target, array, compareFn)`
(`src/unnamed/part_001`, lines 531-559). -/
def binarySearch (t : β) (a : List β) (cmp : β → β → Int) : Int :=
  bsGo cmp t a (a.length + 1) 0 (a.length : Int)

/-! ### Chunk tokenizer (the `transform` callback of `split`,
`src/unnamed/part_001`, lines 270-296) -/

/-- One incoming chunk: split on the delimiter, prepend the carried-over
fragment to the first piece, emit every piece but the last, and retain the
last piece as the new fragment (lines 274-278).  The `[]` case cannot
arise for a nonempty delimiter (`splitOnL` then always returns a nonempty
list). -/
def tokStep (delim carry chunk : Str) : List Str × Str :=
  match splitOnL delim chunk with
  | [] => ([], carry)
  | l0 :: rest =>
    let lines := (carry ++ l0) :: rest
    (lines.dropLast, lines.getLast (by simp))

/-- The records the `flush` callback contributes for the retained fragment
(lines 297-306): one final record if the fragment is nonempty after
trimming, nothing otherwise. -/
def tokFlushEmit (carry : Str) : List Str :=
  if trimL carry = [] then [] else [carry]

/-- All record strings the tokenizer hands to the parse callback, starting
from the carried fragment `carry`. -/
def tokenizeFrom (delim : Str) : Str → List Str → List Str
  | carry, [] => tokFlushEmit carry
  | carry, chunk :: more =>
    let st := tokStep delim carry chunk
    st.1 ++ tokenizeFrom delim st.2 more

/-- All record strings the tokenizer emits for a chunked input stream. -/
def tokenize (delim : Str) (chunks : List Str) : List Str :=
  tokenizeFrom delim [] chunks

/-! ### Split stage (`split` and `flushBuffer`,
`src/unnamed/part_001`, lines 238-346) -/

/-- State threaded through `split`'s transform stream: the carried
fragment, the current write batch, the cumulative count of successfully
parsed lines, the sorted batches already flushed as run files, and the
number of parse errors that were caught and logged. -/
structure SplitSt (α : Type u) where
  carry : Str
  buffer : List α
  linesLoaded : Nat
  runs : List (List α)
  logs : Nat

/-- The in-memory part of `flushBuffer` (lines 331-346): sort the batch
in place with the caller's comparator.  `Array.prototype.sort` is a stable
sort, modelled by `List.insertionSort` on `compareFn x y ≤ 0`. -/
def flushBufferVals (c : α → α → Int) (buffer : List α) : List α :=
  buffer.insertionSort (fun x y => c x y ≤ 0)

/-- Process one record string inside the transform loop (lines 279-293):
try to parse (a throw is caught, logged and the record dropped), then
flush the batch when it reaches `linesPerFile` records or when the memory
monitor fires.  `shouldFlushMemory` reads process memory, so it is
modelled by an arbitrary oracle over the observable arguments
(`linesLoaded`, current batch size). -/
def procLine (c : α → α → Int) (parse : Str → Option α)
    (oracle : Nat → Nat → Bool) (lpf : Nat) (st : SplitSt α) (line : Str) :
    SplitSt α :=
  let st1 :=
    match parse line with
    | some v =>
      { st with buffer := st.buffer ++ [v], linesLoaded := st.linesLoaded + 1 }
    | none => { st with logs := st.logs + 1 }
  if st1.buffer.length = lpf ∨ oracle st1.linesLoaded st1.buffer.length then
    { st1 with buffer := [], runs := st1.runs ++ [flushBufferVals c st1.buffer] }
  else st1

/-- Process one incoming chunk (lines 270-296): tokenize it, then run the
per-record loop over the emitted pieces. -/
def procChunk (c : α → α → Int) (parse : Str → Option α) (delim : Str)
    (oracle : Nat → Nat → Bool) (lpf : Nat) (st : SplitSt α) (chunk : Str) :
    SplitSt α :=
  let tk := tokStep delim st.carry chunk
  tk.1.foldl (procLine c parse oracle lpf) { st with carry := tk.2 }

/-- The transform's `flush` callback (lines 297-312): parse the retained
fragment when it is nonempty after trimming (a throw again logged and
dropped; `linesLoaded` is not incremented here, as in the source), then
flush the final batch if it is nonempty. -/
def splitFlush (c : α → α → Int) (parse : Str → Option α) (st : SplitSt α) :
    SplitSt α :=
  let st1 :=
    if trimL st.carry = [] then st
    else
      match parse st.carry with
      | some v => { st with buffer := st.buffer ++ [v] }
      | none => { st with logs := st.logs + 1 }
  if st1.buffer.length ≠ 0 then
    { st1 with buffer := [], runs := st1.runs ++ [flushBufferVals c st1.buffer] }
  else st1

/-- The whole `split` stage over a chunked input: each run in `.runs` is
the (sorted) record content of one run file, in creation order. -/
def splitModel (c : α → α → Int) (parse : Str → Option α) (delim : Str)
    (oracle : Nat → Nat → Bool) (lpf : Nat) (chunks : List Str) : SplitSt α :=
  splitFlush c parse
    (chunks.foldl (procChunk c parse delim oracle lpf)
      ⟨[], [], 0, [], 0⟩)

/-- Model of JavaScript `array.join(sep)`. -/
def joinStr (sep : Str) : List Str → Str
  | [] => []
  | x :: xs => x ++ xs.flatMap (fun y => sep ++ y)

/-- The text `flushBuffer` writes to a run file (lines 338-342): the
serialized batch with one extra empty entry, joined with newlines, so the
file ends with a trailing newline. -/
def runContent (serialize : α → Str) (vals : List α) : Str :=
  joinStr [nl] (vals.map serialize ++ [[]])

/-- The sequence of lines `readline` yields for a file with the given
content: newline-separated pieces, except that a trailing newline does not
produce a final empty line. -/
def fileLines (content : Str) : List Str :=
  let ls := splitLines nl content
  if ls.getLast? = some [] then ls.dropLast else ls

/-! ### K-way merge (`mergeSortedStreams` and friends,
`src/unnamed/part_001`, lines 348-529) -/

/-- Merge-time cursor over one run (the `MergerInfo` record, lines
348-354, minus the stream handles): current decoded record, done flag and
the not-yet-decoded remaining lines of the run. -/
structure MergerInfo (α : Type u) where
  data : α
  done : Bool
  rest : List Str
  deriving DecidableEq, Repr

/-- `mergerInfoReverseCompareFn` (line 479): compare cursors by their
current records with the arguments swapped, giving descending order. -/
def revCmp (c : α → α → Int) (a b : MergerInfo α) : Int :=
  c b.data a.data

/-- Open one cursor per stream by decoding its first line; a stream that
yields nothing is closed and excluded (lines 456-476). -/
def buildReaders (parse : Str → α) (streams : List (List Str)) :
    List (MergerInfo α) :=
  streams.filterMap fun ls =>
    match ls with
    | [] => none
    | h :: t => some ⟨parse h, false, t⟩

/-- Observable effects of the merge loop: records in emission order, the
pending write buffer and its byte size, the payload of each
`resultStream.write` call in order, and the cursor array as observed at
the top of each loop iteration. -/
structure MergeObs (α : Type u) where
  emitted : List α := []
  writeBuffer : List Str := []
  bufSize : Nat := 0
  writes : List Str := []
  trace : List (List (MergerInfo α)) := []

/-- The test `bufferStringSize > maxStringLength` (lines 486, 493) where
`maxStringLength = Math.pow(2, 23) * .90`: for an integer size this is
exactly `7549747 < size`. -/
def exceedsMaxString (n : Nat) : Bool := 7549747 < n

/-- The output-buffer part of one merge iteration (lines 490-505):
serialize the popped record, append it to the write buffer and, when the
buffer exceeds the string-size threshold, await the previous write and
start a new write of the buffer joined with the output delimiter plus a
trailing empty entry, resetting the accumulator. -/
def emitStep (serialize : α → Str) (delim : Str) (m : MergerInfo α)
    (st : MergeObs α) : MergeObs α :=
  let dataStr := serialize m.data
  let wb := st.writeBuffer ++ [dataStr]
  let bs := st.bufSize + dataStr.length
  if exceedsMaxString bs then
    { st with
      emitted := st.emitted ++ [m.data]
      writeBuffer := []
      bufSize := 0
      writes := st.writes ++ [joinStr delim (wb ++ [[]])] }
  else
    { st with
      emitted := st.emitted ++ [m.data]
      writeBuffer := wb
      bufSize := bs }

/-- Fueled model of the `while(readers.length > 0)` merge loop (lines
487-521): pop the tail cursor (the smallest), run `emitStep` on its
record, then advance the cursor and splice it back in at the
`binarySearch` index, or drop it when its run is exhausted.  The `trace`
field records the cursor array observed at the top of each iteration.
`readline` yields only strings before `done`, so the
`next.value == undefined` skip loop (lines 508-510) never skips. -/
def mergeLoop (c : α → α → Int) (parse : Str → α) (serialize : α → Str)
    (delim : Str) : Nat → List (MergerInfo α) → MergeObs α → MergeObs α
  | 0, _, st => st
  | fuel + 1, readers, st =>
    let st0 := { st with trace := st.trace ++ [readers] }
    match readers.getLast? with
    | none => st0
    | some m =>
      let rest := readers.dropLast
      let st1 := emitStep serialize delim m st0
      match m.rest with
      | [] => mergeLoop c parse serialize delim fuel rest st1
      | h :: t =>
        let m1 : MergerInfo α := ⟨parse h, false, t⟩
        let idx := binarySearch m1 rest (revCmp c)
        mergeLoop c parse serialize delim fuel (spliceInsert idx m1 rest) st1

/-- The loop variant: total number of records still held by the cursors. -/
def totalSize (readers : List (MergerInfo α)) : Nat :=
  (readers.map fun m => 1 + m.rest.length).sum

/-- Model of `mergeSortedStreams` (lines 444-529): build the cursors, sort
them descending by record (`Array.prototype.sort` with the reversed
comparator; stable, modelled by `List.insertionSort`), run the merge loop,
then flush the remaining write buffer — which the source joins with
`'\n'`, not with the output delimiter (line 527). -/
def mergeSortedStreams (c : α → α → Int) (parse : Str → α)
    (serialize : α → Str) (delim : Str) (streams : List (List Str)) :
    MergeObs α :=
  if streams = [] then {} else
  let readers :=
    (buildReaders parse streams).insertionSort
      (fun a b => revCmp c a b ≤ 0)
  let st := mergeLoop c parse serialize delim (totalSize readers + 1) readers {}
  if st.writeBuffer.length > 0 then
    { st with writes := st.writes ++ [joinStr [nl] st.writeBuffer] }
  else st

/-- Sum-type-free model of a JavaScript runtime error reaching the caller
as a rejected promise. -/
inductive JsErr where
  | typeError
  deriving DecidableEq, Repr

/-- Model of `mergeSortedFiles` (lines 404-426): the argument is the list
of file contents behind the given paths (`none` models passing
`null`/`undefined`, on which `files.length` throws a `TypeError`); an
empty list returns at once, otherwise every file is opened as a stream and
the work is delegated to `mergeSortedStreams`. -/
def mergeSortedFilesM (c : α → α → Int) (parse : Str → α)
    (serialize : α → Str) (delim : Str) (files : Option (List Str)) :
    Except JsErr (MergeObs α) :=
  match files with
  | none => .error .typeError
  | some contents =>
    if contents.length = 0 then .ok {}
    else .ok (mergeSortedStreams c parse serialize delim (contents.map fileLines))

/-- Model of `mergeSortedStreams` called directly with a possibly
`null`/`undefined` argument: `streams.length` throws on `null`. -/
def mergeSortedStreamsM (c : α → α → Int) (parse : Str → α)
    (serialize : α → Str) (delim : Str) (streams : Option (List (List Str))) :
    Except JsErr (MergeObs α) :=
  match streams with
  | none => .error .typeError
  | some ss =>
    if ss.length = 0 then .ok {}
    else .ok (mergeSortedStreams c parse serialize delim ss)

/-- Model of the dispatching `merge` (lines 371-386): `null`, `undefined`
and the empty list all return immediately; otherwise both the stream and
the file branch end in `mergeSortedStreams` over the per-input line
sequences. -/
def mergeM (c : α → α → Int) (parse : Str → α) (serialize : α → Str)
    (delim : Str) (inputs : Option (List (List Str))) :
    Except JsErr (MergeObs α) :=
  match inputs with
  | none => .ok {}
  | some [] => .ok {}
  | some ss => .ok (mergeSortedStreams c parse serialize delim ss)

/-- Model of the `sortStream` pipeline (lines 195-221): split the chunked
input into sorted run files (serialized with `JSON.stringify`, modelled by
`jstr`), then merge the runs back (parsed with `JSON.parse`, modelled by
`jparse`), writing through the output buffer pipeline. -/
def sortStreamModel (c : α → α → Int) (parse : Str → Option α)
    (outMap : α → Str) (jstr : α → Str) (jparse : Str → α)
    (inDelim outDelim : Str) (oracle : Nat → Nat → Bool) (lpf : Nat)
    (chunks : List Str) : MergeObs α :=
  let sp := splitModel c parse inDelim oracle lpf chunks
  mergeSortedStreams c jparse outMap outDelim
    (sp.runs.map fun vs => fileLines (runContent jstr vs))

/-- The record sequence a cursor still holds: its current decoded record
followed by the rest of its run, decoded. -/
def cursorVals (parse : Str → α) (m : MergerInfo α) : List α :=
  m.data :: m.rest.map parse

/-- The records emitted by the tokenizer for the chunk list alone, without
the end-of-stream flush. -/
def tokChunksEmit (delim : Str) : Str → List Str → List Str
  | _, [] => []
  | carry, chunk :: more =>
    (tokStep delim carry chunk).1
      ++ tokChunksEmit delim (tokStep delim carry chunk).2 more

/-- The fragment retained by the tokenizer after all chunks. -/
def tokFinalCarry (delim : Str) : Str → List Str → Str
  | carry, [] => carry
  | carry, chunk :: more => tokFinalCarry delim (tokStep delim carry chunk).2 more

/-! ## A concrete sign comparator for witnesses -/

/-- Three-way integer comparator, the sign function of the linear order
on `Int` (a well-behaved instance of the caller-supplied `compareFn`). -/
def cmpI (a b : Int) : Int := if a < b then -1 else if b < a then 1 else 0

/-- Parse a one-digit line into its numeric value (a concrete
`inputMapFn`/`JSON.parse` stand-in for witnesses). -/
def pDigit (s : Str) : Int :=
  match s with
  | [ch] => (ch.toNat : Int) - 48
  | _ => 0

/-- Serialize a digit value back to a one-character line (a concrete
`outputMapFn`/`JSON.stringify` stand-in for witnesses). -/
def sDigit (n : Int) : Str := [Char.ofNat (n.toNat + 48)]

/-- Parse a one-digit line, rejecting non-digit records (a concrete
throwing `inputMapFn` stand-in for witnesses). -/
def pDigitStrict (s : Str) : Option Int :=
  match s with
  | [ch] => if '0' ≤ ch ∧ ch ≤ '9' then some ((ch.toNat : Int) - 48) else none
  | _ => none

/-- C9 model: outcomes of the externally-performed operations inside one
`sortFile` call (`src/unnamed/part_001`, lines 110-135) — split and merge
may succeed or throw, and the temp-directory deletion may succeed or
throw. -/
structure SortEnv (ε : Type u) where
  splitRes : Except ε Unit
  mergeRes : Except ε Unit
  rmdirRes : Except ε Unit

/-- `deleteFiles` (lines 21-26): `try { fs.rmdirSync(tempFolder); }
catch {}` — whatever the deletion's outcome, nothing is raised. -/
def deleteFilesM (_r : Except ε Unit) : Unit := ()

/-- `sortFile`'s control flow (lines 101-135): register the fresh temp
folder in the process-wide cleanup registry, run split then merge inside
`try` (the first error aborts the body), and in `finally` call
`deleteFiles` and deregister the folder; the body's outcome is then
propagated unchanged.  Returns the promise outcome and the final registry. -/
def sortFileM (io : SortEnv ε) (reg : List String) (folder : String) :
    Except ε Unit × List String :=
  let reg1 := folder :: reg
  let body : Except ε Unit :=
    match io.splitRes with
    | .error e => .error e
    | .ok _ => io.mergeRes
  let _u : Unit := deleteFilesM io.rmdirRes
  (body, reg1.erase folder)

/-- C7 model, from the `src/src/large-sort.ts` revision: when the whole
input fits in one batch (`outputFiles.length === 0` at end-of-input,
lines 188-193), `split`'s flush hands `flushBuffer` the final output path
and the batch is written there directly — sorted, serialized with the
split stage's serializer (`JSON.stringify`, modelled by `jstr`), joined
with newlines and a trailing empty entry (lines 231-238). -/
def tsDirectOutput (c : α → α → Int) (jstr : α → Str) (buffer : List α) :
    Str :=
  runContent jstr (flushBufferVals c buffer)

/-- C7 model: what the ordinary split-into-runs-then-merge path of the
same revision produces for the same single batch: `flushBuffer` writes
the identical content to a run file, and `merge` (the same loop as
`mergeSortedStreams`, lines 250-341 of that revision) reads it back line
by line, decodes with `JSON.parse` (`jparse`), serializes with the
caller's `outputMapFn` (`outMap`), and concatenates its write payloads
into the output file. -/
def tsMergePathOutput (c : α → α → Int) (jstr : α → Str) (jparse : Str → α)
    (outMap : α → Str) (delim : Str) (buffer : List α) : Str :=
  (mergeSortedStreams c jparse outMap delim
    [fileLines (tsDirectOutput c jstr buffer)]).writes.flatten

/-- `JSON.stringify` on quote-free, escape-free strings: wrap in quotes. -/
def jstrQ (s : Str) : Str := '"' :: (s ++ ['"'])

/-- `JSON.parse` on such strings: strip the quotes. -/
def jparseQ (s : Str) : Str := (s.drop 1).dropLast

/-- Compare strings by their first character (a concrete comparator). -/
def cmpHead (x y : Str) : Int :=
  cmpI ((x.headD ' ').toNat : Int) ((y.headD ' ').toNat : Int)

/-! ## Properties of the concrete comparator -/

theorem cmpI_le_iff (a b : Int) : cmpI a b ≤ 0 ↔ a ≤ b := by
  unfold cmpI
  split_ifs <;> omega

theorem cmpI_nonneg_iff (a b : Int) : 0 ≤ cmpI a b ↔ b ≤ a := by
  unfold cmpI
  split_ifs <;> omega

theorem cmpI_pos_iff (a b : Int) : 0 < cmpI a b ↔ b < a := by
  unfold cmpI
  split_ifs <;> omega

theorem cmpI_trans (x y z : Int) : cmpI x y ≤ 0 → cmpI y z ≤ 0 → cmpI x z ≤ 0 := by
  rw [cmpI_le_iff, cmpI_le_iff, cmpI_le_iff]
  omega

theorem cmpI_total (x y : Int) : cmpI x y ≤ 0 ∨ cmpI y x ≤ 0 := by
  rw [cmpI_le_iff, cmpI_le_iff]
  omega

theorem cmpI_mix1 (t x y : Int) : 0 ≤ cmpI t y → cmpI x y ≤ 0 → 0 ≤ cmpI t x := by
  rw [cmpI_nonneg_iff, cmpI_le_iff, cmpI_nonneg_iff]
  omega

theorem cmpI_mix2 (t x y : Int) : 0 < cmpI t y → cmpI x y ≤ 0 → 0 < cmpI t x := by
  rw [cmpI_pos_iff, cmpI_le_iff, cmpI_pos_iff]
  omega

theorem cmpI_flip (x y : Int) : 0 ≤ cmpI x y → cmpI y x ≤ 0 := by
  rw [cmpI_nonneg_iff, cmpI_le_iff]
  omega

/-! ## Correctness of `binarySearch` -/

/-- Loop-invariant proof for `bsGo`: on an array whose entries satisfy
upward-closed "at least the target" / "above the target" predicates (which
is what sortedness ascending with respect to the comparator provides), the
loop returns an index splitting the array into a prefix comparing `≤ 0`
against the target and a suffix comparing `≥ 0`. -/
theorem bsGo_spec (cmp : β → β → Int) (t : β) (a : List β)
    (hP : ∀ i j : Nat, i ≤ j → j < a.length →
      0 ≤ cmp (a.getD i t) t → 0 ≤ cmp (a.getD j t) t)
    (hQ : ∀ i j : Nat, i ≤ j → j < a.length →
      0 < cmp (a.getD i t) t → 0 < cmp (a.getD j t) t) :
    ∀ (fuel : Nat) (start stop : Int),
      (stop - start).toNat ≤ fuel →
      0 ≤ start → start < stop → stop ≤ (a.length : Int) →
      (stop = (a.length : Int) ∨
        ∀ k : Nat, stop - 1 ≤ (k : Int) → k < a.length →
          0 ≤ cmp (a.getD k t) t) →
      (start = 0 ∨ ¬ 0 < cmp (a.getD start.toNat t) t) →
      0 ≤ bsGo cmp t a fuel start stop ∧
      bsGo cmp t a fuel start stop ≤ (a.length : Int) ∧
      (∀ k : Nat, (k : Int) < bsGo cmp t a fuel start stop →
        cmp (a.getD k t) t ≤ 0) ∧
      (∀ k : Nat, bsGo cmp t a fuel start stop ≤ (k : Int) → k < a.length →
        0 ≤ cmp (a.getD k t) t) := by
  intro fuel
  induction fuel with
  | zero =>
    intro start stop hfuel h0 hlt _ _ _
    omega
  | succ fuel ih =>
    intro start stop hfuel h0 hlt hle hInvE hInvS
    by_cases hedge : start = stop - 1
    · -- loop condition fails: run the after-loop code
      simp only [bsGo, if_pos hedge, bsFinal]
      by_cases hfin : start = (a.length : Int) - 1 ∧ cmp (a.getD start.toNat t) t < 0
      · rw [if_pos hfin]
        obtain ⟨hstart, hneg⟩ := hfin
        have hlen1 : 1 ≤ a.length := by omega
        have hsn : start.toNat = a.length - 1 := by omega
        refine ⟨by omega, by omega, ?_, ?_⟩
        · intro k hk
          by_contra hcon
          push_neg at hcon
          have := hP k (a.length - 1) (by omega) (by omega) (le_of_lt hcon)
          rw [← hsn] at this
          omega
        · intro k hk hk2
          omega
      · rw [if_neg hfin]
        have hbefore : ∀ k : Nat, (k : Int) < start → cmp (a.getD k t) t ≤ 0 := by
          intro k hk
          rcases hInvS with h | h
          · omega
          · by_contra hcon
            push_neg at hcon
            exact h (hQ k start.toNat (by omega) (by omega) hcon)
        refine ⟨h0, by omega, hbefore, ?_⟩
        rcases hInvE with hstop | hsuffix
        · -- stop = length, hence start = length - 1
          intro k hks hk2
          have hkeq : k = start.toNat := by omega
          have hstartP : 0 ≤ cmp (a.getD start.toNat t) t := by
            by_contra hcon
            push_neg at hcon
            exact hfin ⟨by omega, hcon⟩
          rw [hkeq]; exact hstartP
        · intro k hks hk2
          exact hsuffix k (by omega) hk2
    · -- loop body
      have hstop2 : start + 2 ≤ stop := by omega
      simp only [bsGo, if_neg hedge]
      have hmid1 : start + 1 ≤ (start + stop) / 2 := by omega
      have hmid2 : (start + stop) / 2 ≤ stop - 1 := by omega
      have hmidne : ¬ (start + stop) / 2 = 0 := by omega
      rw [if_neg hmidne]
      set mid : Int := (start + stop) / 2 with hmiddef
      by_cases hbd : 0 ≤ cmp (a.getD mid.toNat t) t ∧ cmp (a.getD (mid - 1).toNat t) t < 0
      · rw [if_pos hbd]
        obtain ⟨hpv, hbf⟩ := hbd
        refine ⟨by omega, by omega, ?_, ?_⟩
        · intro k hk
          by_contra hcon
          push_neg at hcon
          have := hP k (mid - 1).toNat (by omega) (by omega) (le_of_lt hcon)
          omega
        · intro k hk hk2
          exact hP mid.toNat k (by omega) hk2 hpv
      · rw [if_neg hbd]
        by_cases hgt : 0 < cmp (a.getD mid.toNat t) t
        · rw [if_pos hgt]
          have hnewE : mid = (a.length : Int) ∨
              ∀ k : Nat, mid - 1 ≤ (k : Int) → k < a.length →
                0 ≤ cmp (a.getD k t) t := by
            right
            intro k hk hk2
            have hbfP : 0 ≤ cmp (a.getD (mid - 1).toNat t) t := by
              by_contra hcon
              push_neg at hcon
              exact hbd ⟨by omega, hcon⟩
            exact hP (mid - 1).toNat k (by omega) hk2 hbfP
          exact ih start mid (by omega) h0 (by omega) (by omega) hnewE hInvS
        · rw [if_neg hgt]
          exact ih mid stop (by omega) (by omega) (by omega) hle hInvE
            (Or.inr (by simpa using hgt))

/-- `binarySearch` on the empty array returns `0` (the loop is entered
with `end - 1 = -1` and exits at `mid == 0`). -/
theorem binarySearch_nil (cmp : β → β → Int) (t : β) :
    binarySearch t ([] : List β) cmp = 0 := by
  show bsGo cmp t [] (List.length [] + 1) 0 (List.length ([] : List β) : Int) = 0
  norm_num [bsGo]

/-- Contract of `binarySearch` as implemented: on an array that is sorted
ascending with respect to the comparator (expressed through the two
upward-closure hypotheses, which sortedness implies), the result `r` is an
insertion index: every entry before `r` compares `≤ 0` against the target
and every entry from `r` onward compares `≥ 0`.  Covers the empty array
(`r = 0`), a target belonging at the very end (`r = a.length`) and
single-element arrays. -/
theorem binarySearch_spec (cmp : β → β → Int) (t : β) (a : List β)
    (hP : ∀ i j : Nat, i ≤ j → j < a.length →
      0 ≤ cmp (a.getD i t) t → 0 ≤ cmp (a.getD j t) t)
    (hQ : ∀ i j : Nat, i ≤ j → j < a.length →
      0 < cmp (a.getD i t) t → 0 < cmp (a.getD j t) t) :
    0 ≤ binarySearch t a cmp ∧ binarySearch t a cmp ≤ (a.length : Int) ∧
    (∀ k : Nat, (k : Int) < binarySearch t a cmp → cmp (a.getD k t) t ≤ 0) ∧
    (∀ k : Nat, binarySearch t a cmp ≤ (k : Int) → k < a.length →
      0 ≤ cmp (a.getD k t) t) := by
  rcases a with _ | ⟨x, xs⟩
  · rw [binarySearch_nil]
    refine ⟨le_refl 0, by simp, ?_, ?_⟩
    · intro k hk; omega
    · intro k _ hk2; simp at hk2
  · exact bsGo_spec cmp t (x :: xs) hP hQ ((x :: xs).length + 1) 0
      ((x :: xs).length : Int) (by simp) (le_refl 0) (by simp)
      (le_refl _) (Or.inl rfl) (Or.inl rfl)

/-! ## `splice` insertion -/

/-- For an in-range index (which `binarySearch` always produces), the
JavaScript clamping in `spliceInsert` is the identity. -/
theorem spliceInsert_eq (idx : Int) (x : α) (l : List α)
    (h0 : 0 ≤ idx) (hle : idx ≤ (l.length : Int)) :
    spliceInsert idx x l = l.take idx.toNat ++ x :: l.drop idx.toNat := by
  simp only [spliceInsert]
  have hstart : (if idx < 0 then max ((l.length : Int) + idx) 0
      else min idx (l.length : Int)) = idx := by
    rw [if_neg (by omega)]
    omega
  rw [hstart]

/-- Splicing one element in is a permutation of consing it on. -/
theorem spliceInsert_perm (idx : Int) (x : α) (l : List α) :
    (spliceInsert idx x l).Perm (x :: l) := by
  unfold spliceInsert
  set s := (if idx < 0 then max ((l.length : Int) + idx) 0 else min idx (l.length : Int)) with hs
  calc (l.take s.toNat ++ x :: l.drop s.toNat).Perm
        (x :: (l.take s.toNat ++ l.drop s.toNat)) := List.perm_middle
    _ = x :: l := by rw [List.take_append_drop]

/-- Inserting `x` at an index below everything that should stay before it
and above everything that should come after keeps the list pairwise
ordered. -/
theorem pairwise_spliceInsert {R : α → α → Prop} (x : α) (idx : Int)
    (l : List α) (h0 : 0 ≤ idx) (hle : idx ≤ (l.length : Int))
    (hl : l.Pairwise R)
    (hbefore : ∀ k : Nat, (k : Int) < idx → (hk : k < l.length) → R l[k] x)
    (hafter : ∀ k : Nat, idx ≤ (k : Int) → (hk : k < l.length) → R x l[k]) :
    (spliceInsert idx x l).Pairwise R := by
  rw [spliceInsert_eq idx x l h0 hle]
  rw [List.pairwise_append]
  refine ⟨List.Pairwise.sublist (List.take_sublist _ _) hl, ?_, ?_⟩
  · rw [List.pairwise_cons]
    refine ⟨?_, List.Pairwise.sublist (List.drop_sublist _ _) hl⟩
    intro b hb
    obtain ⟨j, hj, rfl⟩ := List.mem_iff_getElem.mp hb
    rw [List.getElem_drop]
    have hjl : idx.toNat + j < l.length := by
      have := hj
      simp only [List.length_drop] at this
      omega
    exact hafter (idx.toNat + j) (by omega) hjl
  · intro a ha b hb
    obtain ⟨i, hi, rfl⟩ := List.mem_iff_getElem.mp ha
    have hil : i < l.length := by
      have := hi
      simp only [List.length_take] at this
      omega
    have hiidx : i < idx.toNat := by
      have := hi
      simp only [List.length_take] at this
      omega
    rw [List.getElem_take]
    rcases List.mem_cons.mp hb with rfl | hb2
    · exact hbefore i (by omega) hil
    · obtain ⟨j, hj, rfl⟩ := List.mem_iff_getElem.mp hb2
      rw [List.getElem_drop]
      have hjl : idx.toNat + j < l.length := by
        have := hj
        simp only [List.length_drop] at this
        omega
      exact List.pairwise_iff_getElem.mp hl i (idx.toNat + j) hil hjl (by omega)

/-! ## Merge-loop invariants -/

/-- `totalSize` rewrites through a permutation of the cursor array. -/
theorem totalSize_perm {l1 l2 : List (MergerInfo α)} (h : l1.Perm l2) :
    totalSize l1 = totalSize l2 := by
  unfold totalSize
  exact (h.map fun m => 1 + m.rest.length).sum_eq

/-- The records held by the initial cursors are exactly the decoded
streams (empty streams contribute nothing either way). -/
theorem buildReaders_flatMap (parse : Str → α) (streams : List (List Str)) :
    (buildReaders parse streams).flatMap (cursorVals parse)
      = streams.flatMap (fun s => s.map parse) := by
  induction streams with
  | nil => rfl
  | cons s rest ih =>
    rcases s with _ | ⟨h, t⟩
    · simpa [buildReaders, List.filterMap_cons] using ih
    · simpa [buildReaders, List.filterMap_cons, cursorVals] using ih

theorem emitStep_emitted (serialize : α → Str) (delim : Str)
    (m : MergerInfo α) (st : MergeObs α) :
    (emitStep serialize delim m st).emitted = st.emitted ++ [m.data] := by
  simp only [emitStep]
  split <;> rfl

theorem emitStep_trace (serialize : α → Str) (delim : Str)
    (m : MergerInfo α) (st : MergeObs α) :
    (emitStep serialize delim m st).trace = st.trace := by
  simp only [emitStep]
  split <;> rfl

/-- Splits a nonempty cursor array into its popped tail element and the
remaining prefix, with the bookkeeping facts every loop case needs. -/
theorem pop_facts {readers : List (MergerInfo α)} {m : MergerInfo α}
    (hlast : readers.getLast? = some m) :
    readers.dropLast ++ [m] = readers ∧
    totalSize readers = totalSize readers.dropLast + (1 + m.rest.length) := by
  have hne : readers ≠ [] := by
    intro h; rw [h] at hlast; simp at hlast
  have hm : readers.getLast hne = m := by
    rw [List.getLast?_eq_getLast readers hne] at hlast
    exact Option.some_injective _ hlast
  have hsplit : readers.dropLast ++ [m] = readers := by
    rw [← hm]; exact List.dropLast_append_getLast hne
  refine ⟨hsplit, ?_⟩
  conv_lhs => rw [← hsplit]
  simp [totalSize]

/-- After the advance of a cursor whose run still has lines, the variant
drops by exactly one. -/
theorem totalSize_advance (m1 : MergerInfo α) (idx : Int)
    (rest : List (MergerInfo α)) :
    totalSize (spliceInsert idx m1 rest)
      = totalSize rest + 1 + m1.rest.length := by
  rw [totalSize_perm (spliceInsert_perm idx m1 rest)]
  simp [totalSize]
  omega

/-- The merge loop emits every record held by the cursors, each exactly
once, appended to the already-emitted output: its output is a permutation
of the cursor contents.  Holds for any comparator. -/
theorem mergeLoop_perm (c : α → α → Int) (parse : Str → α)
    (serialize : α → Str) (delim : Str) :
    ∀ (fuel : Nat) (readers : List (MergerInfo α)) (st : MergeObs α),
      totalSize readers < fuel →
      (mergeLoop c parse serialize delim fuel readers st).emitted.Perm
        (st.emitted ++ readers.flatMap (cursorVals parse)) := by
  intro fuel
  induction fuel with
  | zero => intro readers st h; omega
  | succ fuel ih =>
    intro readers st hfuel
    rcases hlast : readers.getLast? with _ | ⟨m⟩
    · rw [List.getLast?_eq_none_iff] at hlast
      subst hlast
      simp [mergeLoop]
    · obtain ⟨hsplit, hts⟩ := pop_facts hlast
      simp only [mergeLoop, hlast]
      rcases hrest : m.rest with _ | ⟨h, t⟩
      · -- run exhausted: drop the cursor
        have hcv : cursorVals parse m = [m.data] := by
          simp [cursorVals, hrest]
        refine ((ih _ _ (by omega)).trans ?_)
        rw [emitStep_emitted]
        simp only [MergeObs.emitted]
        conv_rhs => rw [← hsplit]
        rw [List.flatMap_append]
        simp only [List.flatMap_cons, List.flatMap_nil, List.append_nil, hcv]
        rw [List.append_assoc]
        exact (List.perm_append_comm).append_left st.emitted
      · -- run continues: splice the advanced cursor back in
        have hm1 : cursorVals parse m
            = m.data :: cursorVals parse (⟨parse h, false, t⟩ : MergerInfo α) := by
          simp [cursorVals, hrest]
        have hvar : totalSize
            (spliceInsert (binarySearch (⟨parse h, false, t⟩ : MergerInfo α)
              readers.dropLast (revCmp c)) ⟨parse h, false, t⟩ readers.dropLast)
            < fuel := by
          rw [totalSize_advance]
          simp only [MergerInfo.rest] at hts ⊢
          rw [hrest] at hts
          simp only [List.length_cons] at hts
          omega
        refine ((ih _ _ hvar).trans ?_)
        rw [emitStep_emitted]
        simp only [MergeObs.emitted]
        have hperm2 : ((spliceInsert (binarySearch
              (⟨parse h, false, t⟩ : MergerInfo α) readers.dropLast (revCmp c))
              ⟨parse h, false, t⟩ readers.dropLast).flatMap
              (cursorVals parse)).Perm
            (cursorVals parse ⟨parse h, false, t⟩
              ++ readers.dropLast.flatMap (cursorVals parse)) := by
          have := List.Perm.flatMap_right (cursorVals parse)
            (spliceInsert_perm (binarySearch
              (⟨parse h, false, t⟩ : MergerInfo α) readers.dropLast (revCmp c))
              ⟨parse h, false, t⟩ readers.dropLast)
          simpa [List.flatMap_cons] using this
        refine ((hperm2.append_left (st.emitted ++ [m.data])).trans ?_)
        conv_rhs => rw [← hsplit]
        rw [List.flatMap_append]
        simp only [List.flatMap_cons, List.flatMap_nil, List.append_nil, hm1]
        have e1 : st.emitted ++ [m.data]
              ++ (cursorVals parse ⟨parse h, false, t⟩
                ++ readers.dropLast.flatMap (cursorVals parse))
            = st.emitted ++ ((m.data :: cursorVals parse ⟨parse h, false, t⟩)
                ++ readers.dropLast.flatMap (cursorVals parse)) := by
          simp
        rw [e1]
        exact (List.perm_append_comm).append_left st.emitted

/-- The cursors built from a family of sorted streams each hold a sorted
record sequence. -/
theorem buildReaders_cursorVals (c : α → α → Int) (parse : Str → α)
    (streams : List (List Str))
    (hs : ∀ s ∈ streams, List.Pairwise (fun x y => c x y ≤ 0) (s.map parse)) :
    ∀ m ∈ buildReaders parse streams,
      List.Pairwise (fun x y => c x y ≤ 0) (cursorVals parse m) := by
  induction streams with
  | nil => intro m hm; simp [buildReaders] at hm
  | cons s rest ih =>
    intro m hm
    rcases s with _ | ⟨h, t⟩
    · exact ih (fun s hs2 => hs s (List.mem_cons_of_mem _ hs2)) m
        (by simpa [buildReaders, List.filterMap_cons] using hm)
    · rw [buildReaders, List.filterMap_cons] at hm
      simp only [List.mem_cons] at hm
      rcases hm with rfl | hm
      · have := hs (h :: t) (List.mem_cons_self _ _)
        simpa [cursorVals] using this
      · exact ih (fun s hs2 => hs s (List.mem_cons_of_mem _ hs2)) m hm

/-- Sorted-merge master invariant: if the comparator behaves like the sign
function of a total preorder (hypotheses `hA`, `hC`, `hD`, `hE`), the
cursor array is sorted descending by current record, every cursor holds a
sorted record sequence, and everything already emitted is below every
cursor's current record, then the merge loop emits a sorted sequence and
the cursor array stays sorted descending at every observed loop entry. -/
theorem mergeLoop_sorted (c : α → α → Int) (parse : Str → α)
    (serialize : α → Str) (delim : Str)
    (hA : ∀ x y z, c x y ≤ 0 → c y z ≤ 0 → c x z ≤ 0)
    (hC : ∀ t x y, 0 ≤ c t y → c x y ≤ 0 → 0 ≤ c t x)
    (hD : ∀ t x y, 0 < c t y → c x y ≤ 0 → 0 < c t x)
    (hE : ∀ x y, 0 ≤ c x y → c y x ≤ 0) :
    ∀ (fuel : Nat) (readers : List (MergerInfo α)) (st : MergeObs α),
      totalSize readers < fuel →
      List.Pairwise (fun a b => c b.data a.data ≤ 0) readers →
      (∀ m ∈ readers, List.Pairwise (fun x y => c x y ≤ 0) (cursorVals parse m)) →
      (∀ x ∈ st.emitted, ∀ m ∈ readers, c x m.data ≤ 0) →
      List.Pairwise (fun x y => c x y ≤ 0) st.emitted →
      (∀ s ∈ st.trace, List.Pairwise (fun a b => c b.data a.data ≤ 0) s) →
      List.Pairwise (fun x y => c x y ≤ 0)
        (mergeLoop c parse serialize delim fuel readers st).emitted ∧
      (∀ s ∈ (mergeLoop c parse serialize delim fuel readers st).trace,
        List.Pairwise (fun a b => c b.data a.data ≤ 0) s) := by
  intro fuel
  induction fuel with
  | zero => intro readers st h; omega
  | succ fuel ih =>
    intro readers st hfuel hsort hcur hacc hemit htr
    rcases hlast : readers.getLast? with _ | ⟨m⟩
    · rw [List.getLast?_eq_none_iff] at hlast
      subst hlast
      simp only [mergeLoop]
      refine ⟨hemit, ?_⟩
      intro s hsmem
      rcases List.mem_append.mp hsmem with hsmem | hsmem
      · exact htr s hsmem
      · simp only [List.mem_singleton] at hsmem
        subst hsmem
        exact List.Pairwise.nil
    · obtain ⟨hsplit, hts⟩ := pop_facts hlast
      have hmem : m ∈ readers := by
        rw [← hsplit]; simp
      have hsort2 : List.Pairwise (fun a b => c b.data a.data ≤ 0)
          (readers.dropLast ++ [m]) := by rw [hsplit]; exact hsort
      rw [List.pairwise_append] at hsort2
      have hrs := hsort2.1
      have hsm : ∀ r ∈ readers.dropLast, c m.data r.data ≤ 0 := by
        intro r hr
        exact hsort2.2.2 r hr m (List.mem_singleton_self m)
      -- facts about the state after the emit step
      have hemit1 : List.Pairwise (fun x y => c x y ≤ 0)
          (st.emitted ++ [m.data]) := by
        rw [List.pairwise_append]
        exact ⟨hemit, List.pairwise_singleton _ _,
          fun x hx b hb => by
            simp only [List.mem_singleton] at hb
            subst hb
            exact hacc x hx m hmem⟩
      have hacc1 : ∀ x ∈ st.emitted ++ [m.data], ∀ r ∈ readers.dropLast,
          c x r.data ≤ 0 := by
        intro x hx r hr
        rcases List.mem_append.mp hx with hx | hx
        · exact hacc x hx r (by rw [← hsplit]; exact List.mem_append_left _ hr)
        · simp only [List.mem_singleton] at hx
          subst hx
          exact hsm r hr
      have htr1 : ∀ s ∈ st.trace ++ [readers],
          List.Pairwise (fun a b => c b.data a.data ≤ 0) s := by
        intro s hsmem
        rcases List.mem_append.mp hsmem with hsmem | hsmem
        · exact htr s hsmem
        · simp only [List.mem_singleton] at hsmem
          subst hsmem
          exact hsort
      simp only [mergeLoop, hlast]
      rcases hrest : m.rest with _ | ⟨h, t⟩
      · -- run exhausted
        refine ih readers.dropLast _ (by omega)
          hrs
          (fun r hr => hcur r (by rw [← hsplit]; exact List.mem_append_left _ hr))
          ?_ ?_ ?_
        · rw [emitStep_emitted]
          simp only [MergeObs.emitted]
          exact hacc1
        · rw [emitStep_emitted]
          exact hemit1
        · rw [emitStep_trace]
          exact htr1
      · -- run continues: decode the next record and splice back in
        have hcvm := hcur m hmem
        rw [cursorVals, hrest] at hcvm
        simp only [List.map_cons] at hcvm
        rw [List.pairwise_cons] at hcvm
        have hmh : c m.data (parse h) ≤ 0 :=
          hcvm.1 (parse h) (List.mem_cons_self _ _)
        have hcvm1 : List.Pairwise (fun x y => c x y ≤ 0)
            (cursorVals parse ⟨parse h, false, t⟩) := by
          rw [cursorVals]
          exact hcvm.2
        -- binary-search contract instance over the remaining cursors
        have hPQ : ∀ i j : Nat, i ≤ j → j < readers.dropLast.length →
            (0 ≤ revCmp c (readers.dropLast.getD i ⟨parse h, false, t⟩)
                ⟨parse h, false, t⟩ →
              0 ≤ revCmp c (readers.dropLast.getD j ⟨parse h, false, t⟩)
                ⟨parse h, false, t⟩) ∧
            (0 < revCmp c (readers.dropLast.getD i ⟨parse h, false, t⟩)
                ⟨parse h, false, t⟩ →
              0 < revCmp c (readers.dropLast.getD j ⟨parse h, false, t⟩)
                ⟨parse h, false, t⟩) := by
          intro i j hij hj
          have hi : i < readers.dropLast.length := lt_of_le_of_lt hij hj
          rw [List.getD_eq_getElem _ _ hi, List.getD_eq_getElem _ _ hj]
          rcases Nat.lt_or_ge i j with hlt | hge
          · have hij2 : c readers.dropLast[j].data readers.dropLast[i].data ≤ 0 :=
              List.pairwise_iff_getElem.mp hrs i j hi hj hlt
            constructor
            · intro hP
              exact hC _ _ _ hP hij2
            · intro hQ
              exact hD _ _ _ hQ hij2
          · have : i = j := by omega
            subst this
            exact ⟨id, id⟩
        obtain ⟨hbs0, hbslen, hbsbefore, hbsafter⟩ :=
          binarySearch_spec (revCmp c) (⟨parse h, false, t⟩ : MergerInfo α)
            readers.dropLast
            (fun i j hij hj hP => ((hPQ i j hij hj).1 hP))
            (fun i j hij hj hQ => ((hPQ i j hij hj).2 hQ))
        have hsort3 : List.Pairwise (fun a b => c b.data a.data ≤ 0)
            (spliceInsert (binarySearch (⟨parse h, false, t⟩ : MergerInfo α)
                readers.dropLast (revCmp c))
              ⟨parse h, false, t⟩ readers.dropLast) := by
          refine pairwise_spliceInsert _ _ _ hbs0 hbslen hrs ?_ ?_
          · intro k hk hk2
            have := hbsbefore k hk
            rw [List.getD_eq_getElem _ _ hk2] at this
            simpa [revCmp] using this
          · intro k hk hk2
            have := hbsafter k hk hk2
            rw [List.getD_eq_getElem _ _ hk2] at this
            simp only [revCmp] at this
            exact hE _ _ this
        have hmemsplice : ∀ r ∈ spliceInsert
            (binarySearch (⟨parse h, false, t⟩ : MergerInfo α)
              readers.dropLast (revCmp c))
            (⟨parse h, false, t⟩ : MergerInfo α) readers.dropLast,
            r = (⟨parse h, false, t⟩ : MergerInfo α) ∨ r ∈ readers.dropLast := by
          intro r hr
          have := (spliceInsert_perm _ _ _).mem_iff.mp hr
          simpa using this
        refine ih _ _ ?_ hsort3 ?_ ?_ ?_ ?_
        · rw [totalSize_advance]
          simp only [MergerInfo.rest] at hts ⊢
          rw [hrest] at hts
          simp only [List.length_cons] at hts
          omega
        · intro r hr
          rcases hmemsplice r hr with rfl | hr2
          · exact hcvm1
          · exact hcur r (by rw [← hsplit]; exact List.mem_append_left _ hr2)
        · rw [emitStep_emitted]
          simp only [MergeObs.emitted]
          intro x hx r hr
          rcases hmemsplice r hr with rfl | hr2
          · simp only [MergerInfo.data]
            rcases List.mem_append.mp hx with hx | hx
            · exact hA _ _ _ (hacc x hx m hmem) hmh
            · simp only [List.mem_singleton] at hx
              subst hx
              exact hmh
          · exact hacc1 x hx r hr2
        · rw [emitStep_emitted]
          exact hemit1
        · rw [emitStep_trace]
          exact htr1

/-- The final write-buffer flush after the merge loop changes only the
`writes` field. -/
theorem mergeSortedStreams_obs (c : α → α → Int) (parse : Str → α)
    (serialize : α → Str) (delim : Str) (streams : List (List Str))
    (hne : streams ≠ []) :
    (mergeSortedStreams c parse serialize delim streams).emitted
        = (mergeLoop c parse serialize delim
            (totalSize ((buildReaders parse streams).insertionSort
              (fun a b => revCmp c a b ≤ 0)) + 1)
            ((buildReaders parse streams).insertionSort
              (fun a b => revCmp c a b ≤ 0)) {}).emitted ∧
    (mergeSortedStreams c parse serialize delim streams).trace
        = (mergeLoop c parse serialize delim
            (totalSize ((buildReaders parse streams).insertionSort
              (fun a b => revCmp c a b ≤ 0)) + 1)
            ((buildReaders parse streams).insertionSort
              (fun a b => revCmp c a b ≤ 0)) {}).trace := by
  simp only [mergeSortedStreams, if_neg hne]
  split <;> exact ⟨rfl, rfl⟩

/-- The records emitted by `mergeSortedStreams` are a permutation of the
decoded contents of all input streams (each record emitted exactly once).
No assumption on the comparator is needed. -/
theorem mergeSortedStreams_perm (c : α → α → Int) (parse : Str → α)
    (serialize : α → Str) (delim : Str) (streams : List (List Str)) :
    (mergeSortedStreams c parse serialize delim streams).emitted.Perm
      (streams.flatMap (fun s => s.map parse)) := by
  by_cases hne : streams = []
  · subst hne
    simp [mergeSortedStreams]
  · rw [(mergeSortedStreams_obs c parse serialize delim streams hne).1]
    refine (mergeLoop_perm c parse serialize delim _ _ _ (by omega)).trans ?_
    simp only [MergeObs.emitted, List.nil_append]
    refine (List.Perm.flatMap_right (cursorVals parse)
      (List.perm_insertionSort _ _)).trans ?_
    rw [buildReaders_flatMap]

/-- The number of records emitted by `mergeSortedStreams` equals the total
number of lines across all input streams. -/
theorem mergeSortedStreams_count (c : α → α → Int) (parse : Str → α)
    (serialize : α → Str) (delim : Str) (streams : List (List Str)) :
    (mergeSortedStreams c parse serialize delim streams).emitted.length
      = (streams.map List.length).sum := by
  rw [(mergeSortedStreams_perm c parse serialize delim streams).length_eq]
  rw [List.length_flatMap]
  congr 1
  simp [Function.comp]

/-- Sortedness of `mergeSortedStreams`: with a comparator that behaves
like the sign function of a total preorder and input streams sorted
ascending, the emitted sequence is sorted ascending and the cursor array
is sorted descending at every loop entry. -/
theorem mergeSortedStreams_sorted (c : α → α → Int) (parse : Str → α)
    (serialize : α → Str) (delim : Str) (streams : List (List Str))
    (hA : ∀ x y z, c x y ≤ 0 → c y z ≤ 0 → c x z ≤ 0)
    (hB : ∀ x y, c x y ≤ 0 ∨ c y x ≤ 0)
    (hC : ∀ t x y, 0 ≤ c t y → c x y ≤ 0 → 0 ≤ c t x)
    (hD : ∀ t x y, 0 < c t y → c x y ≤ 0 → 0 < c t x)
    (hE : ∀ x y, 0 ≤ c x y → c y x ≤ 0)
    (hstreams : ∀ s ∈ streams,
      List.Pairwise (fun x y => c x y ≤ 0) (s.map parse)) :
    List.Pairwise (fun x y => c x y ≤ 0)
      (mergeSortedStreams c parse serialize delim streams).emitted ∧
    (∀ s ∈ (mergeSortedStreams c parse serialize delim streams).trace,
      List.Pairwise (fun a b => c b.data a.data ≤ 0) s) := by
  by_cases hne : streams = []
  · subst hne
    exact ⟨by simp [mergeSortedStreams], by simp [mergeSortedStreams]⟩
  · obtain ⟨he, ht⟩ := mergeSortedStreams_obs c parse serialize delim streams hne
    rw [he, ht]
    haveI : IsTrans (MergerInfo α) (fun a b => revCmp c a b ≤ 0) := by
      constructor
      intro a b d hab hbd
      simp only [revCmp] at hab hbd ⊢
      exact hA _ _ _ hbd hab
    haveI : IsTotal (MergerInfo α) (fun a b => revCmp c a b ≤ 0) := by
      constructor
      intro a b
      simp only [revCmp]
      rcases hB b.data a.data with h | h
      · exact Or.inl h
      · exact Or.inr h
    have hsorted : List.Pairwise (fun a b => c b.data a.data ≤ 0)
        ((buildReaders parse streams).insertionSort
          (fun a b => revCmp c a b ≤ 0)) := by
      have := List.sorted_insertionSort (fun a b => revCmp c a b ≤ 0)
        (buildReaders parse streams)
      exact this
    refine mergeLoop_sorted c parse serialize delim hA hC hD hE _ _ _
      (by omega) hsorted ?_ ?_ ?_ ?_
    · intro m hm
      exact buildReaders_cursorVals c parse streams hstreams m
        ((List.perm_insertionSort _ _).mem_iff.mp hm)
    · intro x hx
      simp at hx
    · exact List.Pairwise.nil
    · intro s hs
      simp at hs

/-! ## Split-stage invariants -/

/-- The tokenizer output splits into the per-chunk emissions followed by
the flush of the final retained fragment. -/
theorem tokenizeFrom_eq (delim : Str) :
    ∀ (chunks : List Str) (carry : Str),
      tokenizeFrom delim carry chunks
        = tokChunksEmit delim carry chunks
          ++ tokFlushEmit (tokFinalCarry delim carry chunks) := by
  intro chunks
  induction chunks with
  | nil => intro carry; simp [tokenizeFrom, tokChunksEmit, tokFinalCarry]
  | cons chunk more ih =>
    intro carry
    simp only [tokenizeFrom, tokChunksEmit, tokFinalCarry, ih, List.append_assoc]

/-- One step of the per-record split loop: the records sitting in run
files or in the current batch grow by exactly the successfully parsed
record; the carry is untouched; the error log grows on a parse failure. -/
theorem procLine_spec (c : α → α → Int) (parse : Str → Option α)
    (oracle : Nat → Nat → Bool) (lpf : Nat) (st : SplitSt α) (line : Str) :
    ((procLine c parse oracle lpf st line).runs.flatten
        ++ (procLine c parse oracle lpf st line).buffer).Perm
      ((st.runs.flatten ++ st.buffer) ++ List.filterMap parse [line]) ∧
    (procLine c parse oracle lpf st line).carry = st.carry ∧
    (procLine c parse oracle lpf st line).logs
      = st.logs + ([line].filter (fun l => (parse l).isNone)).length := by
  rcases hp : parse line with _ | ⟨v⟩ <;>
    simp only [procLine, hp, List.filterMap_cons, List.filterMap_nil,
      List.filter_cons, List.filter_nil, Option.isNone_some, Option.isNone_none] <;>
    split
  · refine ⟨?_, rfl, by simp⟩
    simp only [List.flatten_append, List.flatten_cons, List.flatten_nil,
      List.append_nil]
    exact (List.perm_insertionSort _ _).append_left st.runs.flatten
  · exact ⟨by simp, rfl, by simp⟩
  · refine ⟨?_, rfl, by simp⟩
    simp only [List.flatten_append, List.flatten_cons, List.flatten_nil,
      List.append_nil, List.append_assoc]
    exact (List.perm_insertionSort _ _).append_left st.runs.flatten
  · refine ⟨?_, rfl, by simp⟩
    simp [List.append_assoc]

/-- Folding the per-record loop over a line list, accumulated form. -/
theorem foldProcLines_spec (c : α → α → Int) (parse : Str → Option α)
    (oracle : Nat → Nat → Bool) (lpf : Nat) :
    ∀ (lines : List Str) (st : SplitSt α),
      ((lines.foldl (procLine c parse oracle lpf) st).runs.flatten
          ++ (lines.foldl (procLine c parse oracle lpf) st).buffer).Perm
        ((st.runs.flatten ++ st.buffer) ++ List.filterMap parse lines) ∧
      (lines.foldl (procLine c parse oracle lpf) st).carry = st.carry ∧
      (lines.foldl (procLine c parse oracle lpf) st).logs
        = st.logs + (lines.filter (fun l => (parse l).isNone)).length := by
  intro lines
  induction lines with
  | nil => intro st; simp
  | cons line more ih =>
    intro st
    obtain ⟨hperm1, hcarry1, hlogs1⟩ :=
      procLine_spec c parse oracle lpf st line
    obtain ⟨hperm2, hcarry2, hlogs2⟩ := ih (procLine c parse oracle lpf st line)
    simp only [List.foldl_cons]
    refine ⟨?_, by rw [hcarry2, hcarry1], ?_⟩
    · refine hperm2.trans ?_
      refine (hperm1.append_right (List.filterMap parse more)).trans ?_
      simp [List.filterMap_cons, List.append_assoc]
      rcases parse line with _ | ⟨v⟩ <;> simp
    · rw [hlogs2, hlogs1]
      rcases hp : parse line with _ | ⟨v⟩ <;> simp [List.filter_cons, hp] <;> omega

/-- Folding the per-chunk loop: the pending records are the successfully
parsed tokenizer emissions, the carry is the retained fragment, and the
log counts the parse failures. -/
theorem foldProcChunks_spec (c : α → α → Int) (parse : Str → Option α)
    (delim : Str) (oracle : Nat → Nat → Bool) (lpf : Nat) :
    ∀ (chunks : List Str) (st : SplitSt α),
      ((chunks.foldl (procChunk c parse delim oracle lpf) st).runs.flatten
          ++ (chunks.foldl (procChunk c parse delim oracle lpf) st).buffer).Perm
        ((st.runs.flatten ++ st.buffer)
          ++ List.filterMap parse (tokChunksEmit delim st.carry chunks)) ∧
      (chunks.foldl (procChunk c parse delim oracle lpf) st).carry
        = tokFinalCarry delim st.carry chunks ∧
      (chunks.foldl (procChunk c parse delim oracle lpf) st).logs
        = st.logs + ((tokChunksEmit delim st.carry chunks).filter
            (fun l => (parse l).isNone)).length := by
  intro chunks
  induction chunks with
  | nil => intro st; simp [tokChunksEmit, tokFinalCarry]
  | cons chunk more ih =>
    intro st
    simp only [List.foldl_cons, procChunk, tokChunksEmit, tokFinalCarry]
    obtain ⟨hperm1, hcarry1, hlogs1⟩ := foldProcLines_spec c parse oracle lpf
      (tokStep delim st.carry chunk).1 { st with carry := (tokStep delim st.carry chunk).2 }
    obtain ⟨hperm2, hcarry2, hlogs2⟩ := ih
      ((tokStep delim st.carry chunk).1.foldl (procLine c parse oracle lpf)
        { st with carry := (tokStep delim st.carry chunk).2 })
    refine ⟨?_, ?_, ?_⟩
    · rw [hcarry1] at hperm2
      refine hperm2.trans ?_
      refine (hperm1.append_right _).trans ?_
      simp [List.filterMap_append, List.append_assoc]
    · rw [hcarry2, hcarry1]
    · rw [hlogs2, hlogs1, hcarry1]
      simp [List.filter_append]
      omega

/-- End-to-end split stage: the records persisted across all run files are
exactly the successfully parsed tokenizer emissions (as a multiset), and
the error log counts exactly the records whose parse threw. -/
theorem splitModel_spec (c : α → α → Int) (parse : Str → Option α)
    (delim : Str) (oracle : Nat → Nat → Bool) (lpf : Nat) (chunks : List Str) :
    ((splitModel c parse delim oracle lpf chunks).runs.flatten).Perm
      (List.filterMap parse (tokenize delim chunks)) ∧
    (splitModel c parse delim oracle lpf chunks).logs
      = ((tokenize delim chunks).filter (fun l => (parse l).isNone)).length := by
  obtain ⟨hperm, hcarry, hlogs⟩ :=
    foldProcChunks_spec c parse delim oracle lpf chunks ⟨[], [], 0, [], 0⟩
  simp only [List.flatten_nil, List.nil_append, List.append_nil] at hperm hlogs
  rw [splitModel, tokenize, tokenizeFrom_eq]
  rw [← hcarry]
  set st1 := chunks.foldl (procChunk c parse delim oracle lpf)
    (⟨[], [], 0, [], 0⟩ : SplitSt α) with hst1
  clear_value st1
  rw [splitFlush]
  by_cases htrim : trimL st1.carry = []
  · simp only [htrim, if_pos, tokFlushEmit, if_pos rfl, List.append_nil]
    constructor
    · by_cases hbuf : st1.buffer.length ≠ 0
      · rw [if_pos hbuf]
        simp only [List.flatten_append, List.flatten_cons, List.flatten_nil,
          List.append_nil]
        exact ((List.perm_insertionSort _ _).append_left st1.runs.flatten).trans
          hperm
      · rw [if_neg hbuf]
        push_neg at hbuf
        rw [List.length_eq_zero] at hbuf
        rw [hbuf, List.append_nil] at hperm
        exact hperm
    · by_cases hbuf : st1.buffer.length ≠ 0
      · rw [if_pos hbuf]
        simpa using hlogs
      · rw [if_neg hbuf]
        simpa using hlogs
  · simp only [tokFlushEmit, if_neg htrim]
    rcases hp : parse st1.carry with _ | ⟨v⟩ <;> simp only [hp]
    · simp only [List.filterMap_append, List.filterMap_cons, hp,
        List.filterMap_nil, List.append_nil, List.filter_append,
        List.filter_cons, Option.isNone_none, List.filter_nil]
      constructor
      · by_cases hbuf : st1.buffer.length ≠ 0
        · simp only [SplitSt.buffer, SplitSt.runs, if_pos hbuf]
          simp only [List.flatten_append, List.flatten_cons, List.flatten_nil,
            List.append_nil]
          exact ((List.perm_insertionSort _ _).append_left st1.runs.flatten).trans
            hperm
        · simp only [SplitSt.buffer, SplitSt.runs, if_neg hbuf]
          push_neg at hbuf
          rw [List.length_eq_zero] at hbuf
          rw [hbuf, List.append_nil] at hperm
          exact hperm
      · by_cases hbuf : st1.buffer.length ≠ 0
        · simp only [SplitSt.buffer, SplitSt.logs, if_pos hbuf]
          simp [hlogs]
        · simp only [SplitSt.buffer, SplitSt.logs, if_neg hbuf]
          simp [hlogs]
    · have hbuf : (st1.buffer ++ [v]).length ≠ 0 := by simp
      simp only [SplitSt.buffer, SplitSt.runs, SplitSt.logs, if_pos hbuf]
      constructor
      · simp only [List.flatten_append, List.flatten_cons, List.flatten_nil,
          List.append_nil, List.filterMap_append, List.filterMap_cons, hp,
          List.filterMap_nil]
        refine ((List.perm_insertionSort _ _).append_left st1.runs.flatten).trans ?_
        rw [← List.append_assoc]
        exact hperm.append_right [v]
      · simp only [List.filter_append, List.filter_cons, Option.isNone_some,
          hp, List.filter_nil]
        simp [hlogs]

/-- A flushed batch is sorted with respect to the comparator. -/
theorem flushBufferVals_sorted (c : α → α → Int)
    (hA : ∀ x y z, c x y ≤ 0 → c y z ≤ 0 → c x z ≤ 0)
    (hB : ∀ x y, c x y ≤ 0 ∨ c y x ≤ 0) (l : List α) :
    List.Pairwise (fun x y => c x y ≤ 0) (flushBufferVals c l) := by
  haveI : IsTrans α (fun x y => c x y ≤ 0) := ⟨fun a b d => hA a b d⟩
  haveI : IsTotal α (fun x y => c x y ≤ 0) := ⟨hB⟩
  exact List.sorted_insertionSort _ l

/-- Every run file the split stage produces is internally sorted. -/
theorem splitModel_runs_sorted (c : α → α → Int) (parse : Str → Option α)
    (delim : Str) (oracle : Nat → Nat → Bool) (lpf : Nat) (chunks : List Str)
    (hA : ∀ x y z, c x y ≤ 0 → c y z ≤ 0 → c x z ≤ 0)
    (hB : ∀ x y, c x y ≤ 0 ∨ c y x ≤ 0) :
    ∀ r ∈ (splitModel c parse delim oracle lpf chunks).runs,
      List.Pairwise (fun x y => c x y ≤ 0) r := by
  have hline : ∀ (st : SplitSt α) (line : Str),
      (∀ r ∈ st.runs, List.Pairwise (fun x y => c x y ≤ 0) r) →
      ∀ r ∈ (procLine c parse oracle lpf st line).runs,
        List.Pairwise (fun x y => c x y ≤ 0) r := by
    intro st line hst r hr
    rw [procLine] at hr
    rcases hp : parse line with _ | ⟨v⟩ <;> simp only [hp] at hr <;> split at hr
    · rcases List.mem_append.mp hr with hr2 | hr2
      · exact hst r hr2
      · simp only [List.mem_singleton] at hr2
        subst hr2
        exact flushBufferVals_sorted c hA hB _
    · exact hst r hr
    · rcases List.mem_append.mp hr with hr2 | hr2
      · exact hst r hr2
      · simp only [List.mem_singleton] at hr2
        subst hr2
        exact flushBufferVals_sorted c hA hB _
    · exact hst r hr
  have hlines : ∀ (lines : List Str) (st : SplitSt α),
      (∀ r ∈ st.runs, List.Pairwise (fun x y => c x y ≤ 0) r) →
      ∀ r ∈ (lines.foldl (procLine c parse oracle lpf) st).runs,
        List.Pairwise (fun x y => c x y ≤ 0) r := by
    intro lines
    induction lines with
    | nil => intro st hst; exact hst
    | cons line more ih =>
      intro st hst
      exact ih _ (hline st line hst)
  have hchunks : ∀ (cs : List Str) (st : SplitSt α),
      (∀ r ∈ st.runs, List.Pairwise (fun x y => c x y ≤ 0) r) →
      ∀ r ∈ (cs.foldl (procChunk c parse delim oracle lpf) st).runs,
        List.Pairwise (fun x y => c x y ≤ 0) r := by
    intro cs
    induction cs with
    | nil => intro st hst; exact hst
    | cons chunk more ih =>
      intro st hst
      exact ih _ (hlines _ _ hst)
  have hflush : ∀ (st : SplitSt α),
      (∀ r ∈ st.runs, List.Pairwise (fun x y => c x y ≤ 0) r) →
      ∀ r ∈ (splitFlush c parse st).runs,
        List.Pairwise (fun x y => c x y ≤ 0) r := by
    intro st hst r hr
    rw [splitFlush] at hr
    set stm := (if trimL st.carry = [] then st
      else
        match parse st.carry with
        | some v => { st with buffer := st.buffer ++ [v] }
        | none => { st with logs := st.logs + 1 }) with hstm
    have hmidruns : stm.runs = st.runs := by
      rw [hstm]
      split
      · rfl
      · rcases parse st.carry with _ | _ <;> rfl
    split at hr
    · rcases List.mem_append.mp hr with hr2 | hr2
      · exact hst r (hmidruns ▸ hr2)
      · simp only [List.mem_singleton] at hr2
        subst hr2
        exact flushBufferVals_sorted c hA hB _
    · exact hst r (hmidruns ▸ hr)
  intro r hr
  rw [splitModel] at hr
  exact hflush _ (hchunks chunks ⟨[], [], 0, [], 0⟩ (by simp)) r hr

/-! ## Run-file round trip -/

/-- `splitLines` undoes a single prepended piece that is free of the
delimiter character. -/
theorem splitLines_append (ch : Char) :
    ∀ (l rest : Str), ch ∉ l →
      splitLines ch (l ++ ch :: rest) = l :: splitLines ch rest := by
  intro l
  induction l with
  | nil =>
    intro rest _
    simp [splitLines]
  | cons c0 l2 ih =>
    intro rest hnotin
    have hne : ¬ c0 = ch := by
      intro h; exact hnotin (by simp [h])
    have hrec := ih rest (fun h => hnotin (List.mem_cons_of_mem _ h))
    simp only [List.cons_append, splitLines, if_neg hne, List.append_eq, hrec]

/-- A delimiter-free text splits into itself. -/
theorem splitLines_of_not_mem (ch : Char) :
    ∀ (l : Str), ch ∉ l → splitLines ch l = [l] := by
  intro l
  induction l with
  | nil => intro _; rfl
  | cons c0 l2 ih =>
    intro hnotin
    have hne : ¬ c0 = ch := by
      intro h; exact hnotin (by simp [h])
    have hrec := ih (fun h => hnotin (List.mem_cons_of_mem _ h))
    simp only [splitLines, if_neg hne, hrec]

theorem joinStr_cons_cons (sep x y : Str) (t : List Str) :
    joinStr sep (x :: y :: t) = x ++ sep ++ joinStr sep (y :: t) := by
  simp [joinStr, List.flatMap_cons, List.append_assoc]

/-- Splitting the newline-joined, newline-terminated run content recovers
the serialized lines, provided no line contains a newline. -/
theorem splitLines_joinStr (ch : Char) :
    ∀ (ls : List Str), (∀ l ∈ ls, ch ∉ l) →
      splitLines ch (joinStr [ch] (ls ++ [[]])) = ls ++ [[]] := by
  intro ls
  induction ls with
  | nil => intro _; rfl
  | cons l ls2 ih =>
    intro hnotin
    have hcons : (l :: ls2) ++ [[]] = l :: (ls2 ++ [[]]) := rfl
    rw [hcons]
    rcases hsh : ls2 ++ [[]] with _ | ⟨y, t⟩
    · exact absurd hsh (by simp)
    · rw [joinStr_cons_cons, List.append_assoc, List.singleton_append]
      rw [splitLines_append ch l _ (hnotin l (List.mem_cons_self _ _))]
      rw [← hsh, ih (fun l2 h => hnotin l2 (List.mem_cons_of_mem _ h))]

/-- Reading back a run file yields exactly the serialized records that
were written, provided the serializer emits no newlines. -/
theorem fileLines_runContent (serialize : α → Str) (vals : List α)
    (hnl : ∀ v ∈ vals, nl ∉ serialize v) :
    fileLines (runContent serialize vals) = vals.map serialize := by
  rw [fileLines, runContent]
  rw [splitLines_joinStr nl (vals.map serialize)
    (by intro l hl; obtain ⟨v, hv, rfl⟩ := List.mem_map.mp hl; exact hnl v hv)]
  rw [List.getLast?_concat]
  simp [List.dropLast_concat]

/-! ## End-to-end pipeline -/

/-- If every record parses, `filterMap` keeps them all. -/
theorem length_filterMap_of_isSome (parse : Str → Option α) :
    ∀ (ls : List Str), (∀ s ∈ ls, (parse s).isSome) →
      (List.filterMap parse ls).length = ls.length := by
  intro ls
  induction ls with
  | nil => intro _; rfl
  | cons l ls2 ih =>
    intro hall
    rcases hp : parse l with _ | ⟨v⟩
    · have := hall l (List.mem_cons_self _ _)
      rw [hp] at this
      simp at this
    · rw [List.filterMap_cons, hp]
      simp only [List.length_cons]
      rw [ih (fun s h => hall s (List.mem_cons_of_mem _ h))]

/-- The streams the merge stage reads are the serialized run batches. -/
theorem sortStream_streams_eq (c : α → α → Int) (parse : Str → Option α)
    (jstr : α → Str) (inDelim : Str) (oracle : Nat → Nat → Bool) (lpf : Nat)
    (chunks : List Str)
    (hnl : ∀ v ∈ (splitModel c parse inDelim oracle lpf chunks).runs.flatten,
      nl ∉ jstr v) :
    ((splitModel c parse inDelim oracle lpf chunks).runs.map
        fun vs => fileLines (runContent jstr vs))
      = (splitModel c parse inDelim oracle lpf chunks).runs.map
          fun vs => vs.map jstr := by
  apply List.map_congr_left
  intro vs hvs
  refine fileLines_runContent jstr vs ?_
  intro v hv
  exact hnl v (List.mem_flatten.mpr ⟨vs, hvs, hv⟩)

/-- End-to-end record preservation: the records the pipeline emits are a
permutation of the successfully parsed tokenizer records. -/
theorem sortStreamModel_perm (c : α → α → Int) (parse : Str → Option α)
    (outMap jstr : α → Str) (jparse : Str → α) (inDelim outDelim : Str)
    (oracle : Nat → Nat → Bool) (lpf : Nat) (chunks : List Str)
    (hnl : ∀ v ∈ (splitModel c parse inDelim oracle lpf chunks).runs.flatten,
      nl ∉ jstr v)
    (hrt : ∀ v ∈ (splitModel c parse inDelim oracle lpf chunks).runs.flatten,
      jparse (jstr v) = v) :
    (sortStreamModel c parse outMap jstr jparse inDelim outDelim oracle lpf
        chunks).emitted.Perm
      (List.filterMap parse (tokenize inDelim chunks)) := by
  rw [sortStreamModel]
  rw [sortStream_streams_eq c parse jstr inDelim oracle lpf chunks hnl]
  refine (mergeSortedStreams_perm c jparse outMap outDelim _).trans ?_
  have hflat : ((splitModel c parse inDelim oracle lpf chunks).runs.map
      fun vs => vs.map jstr).flatMap (fun s => s.map jparse)
      = (splitModel c parse inDelim oracle lpf chunks).runs.flatten := by
    rw [List.flatMap_map]
    have hcongr : ∀ vs ∈ (splitModel c parse inDelim oracle lpf chunks).runs,
        (vs.map jstr).map jparse = vs := by
      intro vs hvs
      rw [List.map_map]
      have : vs.map (jparse ∘ jstr) = vs.map id :=
        List.map_congr_left fun v hv =>
          hrt v (List.mem_flatten.mpr ⟨vs, hvs, hv⟩)
      rw [this, List.map_id]
    calc (splitModel c parse inDelim oracle lpf chunks).runs.flatMap
          (fun vs => (vs.map jstr).map jparse)
        = (splitModel c parse inDelim oracle lpf chunks).runs.flatMap
            (fun vs => vs) := by
          apply List.flatMap_congr
          exact hcongr
      _ = _ := List.flatMap_id _
  rw [hflat]
  exact (splitModel_spec c parse inDelim oracle lpf chunks).1

/-- End-to-end sortedness: with a sign-function-like comparator the
pipeline emits a sorted record sequence. -/
theorem sortStreamModel_sorted (c : α → α → Int) (parse : Str → Option α)
    (outMap jstr : α → Str) (jparse : Str → α) (inDelim outDelim : Str)
    (oracle : Nat → Nat → Bool) (lpf : Nat) (chunks : List Str)
    (hA : ∀ x y z, c x y ≤ 0 → c y z ≤ 0 → c x z ≤ 0)
    (hB : ∀ x y, c x y ≤ 0 ∨ c y x ≤ 0)
    (hC : ∀ t x y, 0 ≤ c t y → c x y ≤ 0 → 0 ≤ c t x)
    (hD : ∀ t x y, 0 < c t y → c x y ≤ 0 → 0 < c t x)
    (hE : ∀ x y, 0 ≤ c x y → c y x ≤ 0)
    (hnl : ∀ v ∈ (splitModel c parse inDelim oracle lpf chunks).runs.flatten,
      nl ∉ jstr v)
    (hrt : ∀ v ∈ (splitModel c parse inDelim oracle lpf chunks).runs.flatten,
      jparse (jstr v) = v) :
    List.Pairwise (fun x y => c x y ≤ 0)
      (sortStreamModel c parse outMap jstr jparse inDelim outDelim oracle lpf
        chunks).emitted := by
  rw [sortStreamModel]
  rw [sortStream_streams_eq c parse jstr inDelim oracle lpf chunks hnl]
  refine (mergeSortedStreams_sorted c jparse outMap outDelim _
    hA hB hC hD hE ?_).1
  intro s hs
  obtain ⟨vs, hvs, rfl⟩ := List.mem_map.mp hs
  rw [List.map_map]
  have : vs.map (jparse ∘ jstr) = vs.map id :=
    List.map_congr_left fun v hv =>
      hrt v (List.mem_flatten.mpr ⟨vs, hvs, hv⟩)
  rw [this, List.map_id]
  exact splitModel_runs_sorted c parse inDelim oracle lpf chunks hA hB vs hvs

/-! ## Claims -/

/-- C1: for every list of input streams whose records all parse
successfully (the merge stage's parse callback is total on the given
lines), and whose decoded record sequences are each sorted ascending per
`compareFn`, the record sequence emitted by the k-way merge of
`mergeSortedStreams` is sorted: every adjacent pair `(x, y)` emitted in
order satisfies `compareFn x y ≤ 0`.  The comparator is assumed to behave
like the sign function of a total preorder (hypotheses `hA`-`hE`), which
holds both for three-way comparators and for the library's default
`(a, b) => a > b ? 1 : -1`. -/
theorem claim_C1_merge_output_sorted (c : α → α → Int) (parse : Str → α)
    (serialize : α → Str) (delim : Str) (streams : List (List Str))
    (hA : ∀ x y z, c x y ≤ 0 → c y z ≤ 0 → c x z ≤ 0)
    (hB : ∀ x y, c x y ≤ 0 ∨ c y x ≤ 0)
    (hC : ∀ t x y, 0 ≤ c t y → c x y ≤ 0 → 0 ≤ c t x)
    (hD : ∀ t x y, 0 < c t y → c x y ≤ 0 → 0 < c t x)
    (hE : ∀ x y, 0 ≤ c x y → c y x ≤ 0)
    (hstreams : ∀ s ∈ streams,
      List.Pairwise (fun x y => c x y ≤ 0) (s.map parse)) :
    List.Pairwise (fun x y => c x y ≤ 0)
      (mergeSortedStreams c parse serialize delim streams).emitted ∧
    ∀ (i : Nat)
      (hi : i + 1 < (mergeSortedStreams c parse serialize delim
        streams).emitted.length),
      c ((mergeSortedStreams c parse serialize delim streams).emitted[i])
        ((mergeSortedStreams c parse serialize delim streams).emitted[i + 1])
        ≤ 0 := by
  have hp := (mergeSortedStreams_sorted c parse serialize delim streams
    hA hB hC hD hE hstreams).1
  refine ⟨hp, ?_⟩
  intro i hi
  exact List.pairwise_iff_getElem.mp hp i (i + 1) (by omega) hi (by omega)

/-- Witness for C1 at the spec's three-stream scenario
`[1,4,7] / [2,5] / [3,6,8,9]`. -/
theorem claim_C1_merge_output_sorted_witness :
    List.Pairwise (fun x y => cmpI x y ≤ 0)
      (mergeSortedStreams cmpI pDigit sDigit [nl]
        [[['1'], ['4'], ['7']], [['2'], ['5']],
          [['3'], ['6'], ['8'], ['9']]]).emitted ∧
    ∀ (i : Nat)
      (hi : i + 1 < (mergeSortedStreams cmpI pDigit sDigit [nl]
        [[['1'], ['4'], ['7']], [['2'], ['5']],
          [['3'], ['6'], ['8'], ['9']]]).emitted.length),
      cmpI ((mergeSortedStreams cmpI pDigit sDigit [nl]
          [[['1'], ['4'], ['7']], [['2'], ['5']],
            [['3'], ['6'], ['8'], ['9']]]).emitted[i])
        ((mergeSortedStreams cmpI pDigit sDigit [nl]
          [[['1'], ['4'], ['7']], [['2'], ['5']],
            [['3'], ['6'], ['8'], ['9']]]).emitted[i + 1]) ≤ 0 :=
  claim_C1_merge_output_sorted cmpI pDigit sDigit [nl]
    [[['1'], ['4'], ['7']], [['2'], ['5']], [['3'], ['6'], ['8'], ['9']]]
    cmpI_trans cmpI_total cmpI_mix1 cmpI_mix2 cmpI_flip (by decide)


/-- C2 counterexample: `[5, 3, 1]` is descending-sorted with respect to
`cmpI` (every earlier entry compares `≥ 0` against every later one), yet
`binarySearch 4 [5, 3, 1] cmpI` returns `3`, and the entry at index `2`
(before the returned index) compares `< 0` against the target — so the
returned index does not satisfy "all entries before `i` compare `≥ T` and
all entries from `i` onward compare `< T`".  The implementation assumes
the array is *ascending* with respect to the comparator it is given. -/
theorem claim_C2_binarySearch_counterexample :
    List.Pairwise (fun x y : Int => 0 ≤ cmpI x y) [5, 3, 1] ∧
    binarySearch (4 : Int) [5, 3, 1] cmpI = 3 ∧
    ¬ 0 ≤ cmpI (([5, 3, 1] : List Int).getD 2 4) 4 := by decide

/-- C2 as amended: on an array sorted *ascending* with respect to the
comparator passed to `binarySearch` (expressed by the two upward-closure
hypotheses, which ascending sortedness implies), the function returns an
insertion index `r` with `0 ≤ r ≤ length` such that every entry before
`r` compares `≤ 0` against the target and every entry from `r` onward
compares `≥ 0`.  This covers the empty array (`r = 0`), a target
belonging at the very end (`r = length`), and single-element arrays. -/
theorem claim_C2_binarySearch_contract (cmp : β → β → Int) (t : β)
    (a : List β)
    (hP : ∀ i j : Nat, i ≤ j → j < a.length →
      0 ≤ cmp (a.getD i t) t → 0 ≤ cmp (a.getD j t) t)
    (hQ : ∀ i j : Nat, i ≤ j → j < a.length →
      0 < cmp (a.getD i t) t → 0 < cmp (a.getD j t) t) :
    0 ≤ binarySearch t a cmp ∧ binarySearch t a cmp ≤ (a.length : Int) ∧
    (∀ k : Nat, (k : Int) < binarySearch t a cmp → cmp (a.getD k t) t ≤ 0) ∧
    (∀ k : Nat, binarySearch t a cmp ≤ (k : Int) → k < a.length →
      0 ≤ cmp (a.getD k t) t) :=
  binarySearch_spec cmp t a hP hQ

/-- Witness for the amended C2 on the ascending array `[1, 3, 5]` with
target `4`. -/
theorem claim_C2_binarySearch_contract_witness :
    0 ≤ binarySearch (4 : Int) [1, 3, 5] cmpI ∧
    binarySearch (4 : Int) [1, 3, 5] cmpI ≤ (([1, 3, 5] : List Int).length : Int) ∧
    (∀ k : Nat, (k : Int) < binarySearch (4 : Int) [1, 3, 5] cmpI →
      cmpI (([1, 3, 5] : List Int).getD k 4) 4 ≤ 0) ∧
    (∀ k : Nat, binarySearch (4 : Int) [1, 3, 5] cmpI ≤ (k : Int) →
      k < ([1, 3, 5] : List Int).length →
      0 ≤ cmpI (([1, 3, 5] : List Int).getD k 4) 4) :=
  claim_C2_binarySearch_contract cmpI 4 [1, 3, 5]
    (by
      intro i j hij hj hP
      have hj3 : j < 3 := by simpa using hj
      interval_cases j <;> interval_cases i <;> revert hP <;> decide)
    (by
      intro i j hij hj hQ
      have hj3 : j < 3 := by simpa using hj
      interval_cases j <;> interval_cases i <;> revert hQ <;> decide)

/-- C3: the Cursor Set (the `readers` array) is sorted descending by each
cursor's current record with respect to `compareFn` at every observation
point of the merge main loop — after the initial build-and-sort and after
every advance-and-splice step (the `trace` records the array at the top
of each loop iteration) — for every number of cursors and record values,
assuming each input stream is sorted and the comparator behaves like the
sign function of a total preorder. -/
theorem claim_C3_cursor_set_sorted (c : α → α → Int) (parse : Str → α)
    (serialize : α → Str) (delim : Str) (streams : List (List Str))
    (hA : ∀ x y z, c x y ≤ 0 → c y z ≤ 0 → c x z ≤ 0)
    (hB : ∀ x y, c x y ≤ 0 ∨ c y x ≤ 0)
    (hC : ∀ t x y, 0 ≤ c t y → c x y ≤ 0 → 0 ≤ c t x)
    (hD : ∀ t x y, 0 < c t y → c x y ≤ 0 → 0 < c t x)
    (hE : ∀ x y, 0 ≤ c x y → c y x ≤ 0)
    (hstreams : ∀ s ∈ streams,
      List.Pairwise (fun x y => c x y ≤ 0) (s.map parse)) :
    ∀ s ∈ (mergeSortedStreams c parse serialize delim streams).trace,
      List.Pairwise (fun a b => c b.data a.data ≤ 0) s :=
  (mergeSortedStreams_sorted c parse serialize delim streams
    hA hB hC hD hE hstreams).2

/-- Witness for C3 on the spec's three-stream scenario: the cursor array
observed at the second loop entry (right after the first advance-and-
splice) is sorted descending. -/
theorem claim_C3_cursor_set_sorted_witness :
    List.Pairwise (fun a b => cmpI b.data a.data ≤ 0)
      ((mergeSortedStreams cmpI pDigit sDigit [nl]
        [[['1'], ['4'], ['7']], [['2'], ['5']],
          [['3'], ['6'], ['8'], ['9']]]).trace.getD 1 []) :=
  claim_C3_cursor_set_sorted cmpI pDigit sDigit [nl]
    [[['1'], ['4'], ['7']], [['2'], ['5']], [['3'], ['6'], ['8'], ['9']]]
    cmpI_trans cmpI_total cmpI_mix1 cmpI_mix2 cmpI_flip (by decide)
    ((mergeSortedStreams cmpI pDigit sDigit [nl]
        [[['1'], ['4'], ['7']], [['2'], ['5']],
          [['3'], ['6'], ['8'], ['9']]]).trace.getD 1 [])
    (by decide)

/-- C4 counterexample: for the input `"a\n\nb"` (one chunk, newline
delimiter), every record parses (the parse callback is total), yet the
pipeline emits 3 records while the input has only 2 non-empty delimited
records: the interior empty record is parsed and emitted, not skipped.
(The merge stage's `next.value == undefined` loop does not skip empty
lines either: `"" == undefined` is false in JavaScript.) -/
theorem claim_C4_cardinality_counterexample :
    (∀ s ∈ tokenize [nl] [['a', nl, nl, 'b']], ((some s : Option Str)).isSome) ∧
    (sortStreamModel (fun _ _ => (-1 : Int)) (fun s => some s)
        (fun s => s) (fun s => s) (fun s => s) [nl] [nl]
        (fun _ _ => false) 100000 [['a', nl, nl, 'b']]).emitted.length = 3 ∧
    ((splitOnL [nl] ['a', nl, nl, 'b']).filter
        (fun p => !p.isEmpty)).length = 2 := by decide

/-- C4 as amended: for every input in which every tokenizer-emitted
record parses successfully, the number of records emitted by the pipeline
equals the number of records the tokenizer emits — that is, the number of
delimited pieces including interior empty ones, excluding only a trailing
fragment that is empty after trimming.  (The run files must decode to
what was written: the run serializer emits no newlines and the merge
parser inverts it on the persisted records.)  The merge stage emits each
run record exactly once. -/
theorem claim_C4_cardinality (c : α → α → Int) (parse : Str → Option α)
    (outMap jstr : α → Str) (jparse : Str → α) (inDelim outDelim : Str)
    (oracle : Nat → Nat → Bool) (lpf : Nat) (chunks : List Str)
    (hall : ∀ s ∈ tokenize inDelim chunks, (parse s).isSome)
    (hnl : ∀ v ∈ (splitModel c parse inDelim oracle lpf chunks).runs.flatten,
      nl ∉ jstr v)
    (hrt : ∀ v ∈ (splitModel c parse inDelim oracle lpf chunks).runs.flatten,
      jparse (jstr v) = v) :
    (sortStreamModel c parse outMap jstr jparse inDelim outDelim oracle lpf
        chunks).emitted.length
      = (tokenize inDelim chunks).length := by
  rw [(sortStreamModel_perm c parse outMap jstr jparse inDelim outDelim
    oracle lpf chunks hnl hrt).length_eq]
  exact length_filterMap_of_isSome parse _ hall

/-- Witness for the amended C4 on the input `"2\n1\n"`. -/
theorem claim_C4_cardinality_witness :
    (sortStreamModel cmpI pDigitStrict sDigit sDigit pDigit [nl] [nl]
        (fun _ _ => false) 100000 [['2', nl, '1', nl]]).emitted.length
      = (tokenize [nl] [['2', nl, '1', nl]]).length :=
  claim_C4_cardinality cmpI pDigitStrict sDigit sDigit pDigit [nl] [nl]
    (fun _ _ => false) 100000 [['2', nl, '1', nl]]
    (by decide) (by decide) (by decide)

/-- C5: behaviour of the chunk tokenizer, for every delimiter, carried
fragment, chunk and chunk sequence: (1) a chunk is split on the
delimiter, the carried fragment is prepended to the first piece, all
pieces except the last are emitted immediately and the last piece is
retained as the new fragment; (2) on stream end a fragment that is
non-empty after trimming is emitted as one final record; (3, 4) a
fragment that trims to empty — in particular the empty fragment produced
by a delimiter match at a chunk boundary — is never emitted as a spurious
record at flush; (5) the full emission is exactly the per-chunk emissions
followed by the flush of the final retained fragment. -/
theorem claim_C5_chunk_tokenizer (delim : Str) :
    (∀ (carry chunk l0 : Str) (rest : List Str),
      splitOnL delim chunk = l0 :: rest →
      tokStep delim carry chunk
        = (((carry ++ l0) :: rest).dropLast,
           ((carry ++ l0) :: rest).getLast (by simp))) ∧
    (∀ carry : Str, trimL carry ≠ [] → tokFlushEmit carry = [carry]) ∧
    (∀ carry : Str, trimL carry = [] → tokFlushEmit carry = []) ∧
    tokFlushEmit [] = [] ∧
    (∀ (carry : Str) (chunks : List Str),
      tokenizeFrom delim carry chunks
        = tokChunksEmit delim carry chunks
          ++ tokFlushEmit (tokFinalCarry delim carry chunks)) := by
  refine ⟨?_, ?_, ?_, ?_, ?_⟩
  · intro carry chunk l0 rest h
    simp [tokStep, h]
  · intro carry h
    simp [tokFlushEmit, h]
  · intro carry h
    simp [tokFlushEmit, h]
  · rfl
  · intro carry chunks
    exact tokenizeFrom_eq delim chunks carry

/-- Witness for C5: a concrete chunk with a carried fragment, a
whitespace-only fragment dropped at flush, a non-empty fragment emitted,
and the empty fragment emitting nothing. -/
theorem claim_C5_chunk_tokenizer_witness :
    tokStep [nl] ['x'] ['a', nl, 'b'] = ([['x', 'a']], ['b']) ∧
    tokFlushEmit [' ', '\t'] = [] ∧
    tokFlushEmit ['b'] = [['b']] ∧
    tokFlushEmit [] = [] := by
  have h := claim_C5_chunk_tokenizer [nl]
  refine ⟨?_, h.2.2.1 [' ', '\t'] (by decide), h.2.1 ['b'] (by decide),
    h.2.2.2.1⟩
  rw [h.1 ['x'] ['a', nl, 'b'] ['a'] [['b']] (by decide)]
  decide

/-- C6, evaluated at a failing input: merging one stream of records
`1, 2` with configured output delimiter `","` produces a single (final)
write whose payload joins the records with `'\n'` — the source's final
flush is `writeBuffer.join('\n')` (line 527), not
`writeBuffer.join(outputDelimeter)` as its threshold flush (line 495) and
its own parameter documentation prescribe. -/
theorem claim_C6_final_flush_ignores_delimiter :
    (mergeSortedStreams cmpI pDigit sDigit [','] [[['1'], ['2']]]).writes
      = [['1', nl, '2']] ∧
    (['1', nl, '2'] : Str) ≠ ['1', ',', '2'] := by decide

/-- C9: for every error raised during split or merge inside `sortFile`,
the call rejects with exactly that error, the temp workspace's entry is
removed from the process-wide cleanup registry, the cleanup deletion is
invoked on the way out, and a failure of the deletion itself is swallowed
(`deleteFiles` returns unit whatever the rmdir outcome, so the result is
the same for every `io.rmdirRes`). -/
theorem claim_C9_error_cleanup (ε : Type u) (io : SortEnv ε)
    (reg : List String) (folder : String) (e : ε)
    (herr : io.splitRes = .error e ∨
      (io.splitRes = .ok () ∧ io.mergeRes = .error e)) :
    (sortFileM io reg folder).1 = .error e ∧
    (sortFileM io reg folder).2 = reg ∧
    (∀ r : Except ε Unit, deleteFilesM r = ()) := by
  refine ⟨?_, ?_, fun r => rfl⟩
  · rcases herr with h | ⟨h1, h2⟩
    · simp [sortFileM, h]
    · simp [sortFileM, h1, h2]
  · simp [sortFileM]

/-- Witness for C9: a split failure with a failing rmdir still rejects
with the split error and deregisters the workspace. -/
theorem claim_C9_error_cleanup_witness :
    (sortFileM (⟨.error 7, .ok (), .error 3⟩ : SortEnv Nat) ["w"] "t").1
        = .error 7 ∧
    (sortFileM (⟨.error 7, .ok (), .error 3⟩ : SortEnv Nat) ["w"] "t").2
        = ["w"] ∧
    (∀ r : Except Nat Unit, deleteFilesM r = ()) :=
  claim_C9_error_cleanup Nat ⟨.error 7, .ok (), .error 3⟩ ["w"] "t" 7
    (Or.inl rfl)

/-- C10 counterexample: `mergeSortedFiles` and `mergeSortedStreams` read
`.length` of their input before any guard, so calling them with
`null`/`undefined` throws a `TypeError` instead of returning
successfully; only the dispatching `merge` checks `!inputs`. -/
theorem claim_C10_null_inputs_counterexample :
    mergeSortedFilesM cmpI pDigit sDigit [nl] none
        = .error JsErr.typeError ∧
    mergeSortedStreamsM cmpI pDigit sDigit [nl] none
        = .error JsErr.typeError ∧
    (Except.error JsErr.typeError
      ≠ (Except.ok ({} : MergeObs Int) : Except JsErr (MergeObs Int))) := by
  refine ⟨rfl, rfl, by simp⟩

/-- C10 as amended: `merge` returns successfully and writes nothing for
`null`/`undefined` and for the empty input list, and `mergeSortedFiles` /
`mergeSortedStreams` do so for the empty list (but not for
`null`/`undefined`, see the counterexample). -/
theorem claim_C10_empty_inputs (c : α → α → Int) (parse : Str → α)
    (serialize : α → Str) (delim : Str) :
    mergeM c parse serialize delim none = .ok {} ∧
    mergeM c parse serialize delim (some []) = .ok {} ∧
    mergeSortedFilesM c parse serialize delim (some []) = .ok {} ∧
    mergeSortedStreamsM c parse serialize delim (some []) = .ok {} ∧
    ({} : MergeObs α).writes = [] ∧ ({} : MergeObs α).emitted = [] := by
  refine ⟨rfl, rfl, ?_, ?_, rfl, rfl⟩
  · simp [mergeSortedFilesM]
  · simp [mergeSortedStreamsM]

/-- C7, evaluated: for the two-record input `"b" / "a"` with
`inputMapFn = x => x` and `outputMapFn = String`, the special-cased
direct write produces `"a"\n"b"\n` (JSON-serialized records, trailing
newline) while the ordinary split-then-merge path produces `a\nb`
(outputMapFn-serialized records, no trailing newline) — the outputs are
not identical. -/
theorem claim_C7_direct_write_not_identical :
    tsDirectOutput cmpHead jstrQ [['b'], ['a']]
        = ['"', 'a', '"', nl, '"', 'b', '"', nl] ∧
    tsMergePathOutput cmpHead jstrQ jparseQ (fun s => s) [nl] [['b'], ['a']]
        = ['a', nl, 'b'] ∧
    tsDirectOutput cmpHead jstrQ [['b'], ['a']]
      ≠ tsMergePathOutput cmpHead jstrQ jparseQ (fun s => s) [nl]
          [['b'], ['a']] := by
  decide

/-- C8: for every input — in particular any in which some record string
makes the parse callback throw during the split stage — every throw is
caught and logged (the log counts exactly the records whose parse fails),
exactly those records are dropped, and processing continues: the pipeline
still completes and emits exactly the successfully parsed records
(as a permutation), sorted per the comparator. -/
theorem claim_C8_parse_fault_tolerated (c : α → α → Int)
    (parse : Str → Option α) (outMap jstr : α → Str) (jparse : Str → α)
    (inDelim outDelim : Str) (oracle : Nat → Nat → Bool) (lpf : Nat)
    (chunks : List Str)
    (hA : ∀ x y z, c x y ≤ 0 → c y z ≤ 0 → c x z ≤ 0)
    (hB : ∀ x y, c x y ≤ 0 ∨ c y x ≤ 0)
    (hC : ∀ t x y, 0 ≤ c t y → c x y ≤ 0 → 0 ≤ c t x)
    (hD : ∀ t x y, 0 < c t y → c x y ≤ 0 → 0 < c t x)
    (hE : ∀ x y, 0 ≤ c x y → c y x ≤ 0)
    (hnl : ∀ v ∈ (splitModel c parse inDelim oracle lpf chunks).runs.flatten,
      nl ∉ jstr v)
    (hrt : ∀ v ∈ (splitModel c parse inDelim oracle lpf chunks).runs.flatten,
      jparse (jstr v) = v) :
    (splitModel c parse inDelim oracle lpf chunks).logs
      = ((tokenize inDelim chunks).filter (fun l => (parse l).isNone)).length ∧
    (sortStreamModel c parse outMap jstr jparse inDelim outDelim oracle lpf
        chunks).emitted.Perm
      (List.filterMap parse (tokenize inDelim chunks)) ∧
    List.Pairwise (fun x y => c x y ≤ 0)
      (sortStreamModel c parse outMap jstr jparse inDelim outDelim oracle lpf
        chunks).emitted :=
  ⟨(splitModel_spec c parse inDelim oracle lpf chunks).2,
    sortStreamModel_perm c parse outMap jstr jparse inDelim outDelim oracle
      lpf chunks hnl hrt,
    sortStreamModel_sorted c parse outMap jstr jparse inDelim outDelim oracle
      lpf chunks hA hB hC hD hE hnl hrt⟩

/-- Witness for C8: input `"5\nx\n3\n"` where the record `"x"` fails to
parse; the log counts one failure and the output is the sorted
permutation of the two well-formed records. -/
theorem claim_C8_parse_fault_tolerated_witness :
    (splitModel cmpI pDigitStrict [nl] (fun _ _ => false) 100000
        [['5', nl, 'x', nl, '3', nl]]).logs
      = ((tokenize [nl] [['5', nl, 'x', nl, '3', nl]]).filter
          (fun l => (pDigitStrict l).isNone)).length ∧
    (sortStreamModel cmpI pDigitStrict sDigit sDigit pDigit [nl] [nl]
        (fun _ _ => false) 100000 [['5', nl, 'x', nl, '3', nl]]).emitted.Perm
      (List.filterMap pDigitStrict (tokenize [nl] [['5', nl, 'x', nl, '3', nl]])) ∧
    List.Pairwise (fun x y => cmpI x y ≤ 0)
      (sortStreamModel cmpI pDigitStrict sDigit sDigit pDigit [nl] [nl]
        (fun _ _ => false) 100000 [['5', nl, 'x', nl, '3', nl]]).emitted :=
  claim_C8_parse_fault_tolerated cmpI pDigitStrict sDigit sDigit pDigit
    [nl] [nl] (fun _ _ => false) 100000 [['5', nl, 'x', nl, '3', nl]]
    cmpI_trans cmpI_total cmpI_mix1 cmpI_mix2 cmpI_flip
    (by decide) (by decide)

/-- Witness for the amended C10 at a concrete instantiation. -/
theorem claim_C10_empty_inputs_witness :
    mergeM cmpI pDigit sDigit [nl] none = .ok {} ∧
    mergeM cmpI pDigit sDigit [nl] (some []) = .ok {} ∧
    mergeSortedFilesM cmpI pDigit sDigit [nl] (some []) = .ok {} ∧
    mergeSortedStreamsM cmpI pDigit sDigit [nl] (some []) = .ok {} ∧
    ({} : MergeObs Int).writes = [] ∧ ({} : MergeObs Int).emitted = [] :=
  claim_C10_empty_inputs cmpI pDigit sDigit [nl]

end LargeSort
